import Mathlib

/-!
Verification development for the Cowai per-user long-term memory subsystem
(`memory_sqlite.py`, `memory_vector.py`, `utils/helpers.py`,
`personality/memory_long.py`).

The Python code is shallowly embedded:

* SQLite tables become Lean lists of rows (row order = table scan order);
* Python floats become rationals (`ℚ`), with `float(x)` failure modelled by
  `Option`;
* the external LLM and the embedding HTTP service become function
  parameters, since their outputs are unconstrained inputs to this code;
* `re.sub`-based redaction becomes an executable maximal-munch matcher.
  Both regexes of `SQLiteMemory.redact` are built from character classes,
  literals and alternations whose greedy behaviour is deterministic (the
  classes never contain the literal that must follow them), so maximal
  munch coincides with Python's leftmost-greedy semantics;
* `sorted(..., reverse=True)` / `list.sort(key=..., reverse=True)` becomes
  a stable descending insertion sort: Python's sort is stable, and any two
  stable sorts over the same key agree.
-/

namespace Cowai

attribute [local semireducible] Rat.add Rat.mul Rat.sub Rat.inv

/-! ## Python string primitives -/

/-- ASCII whitespace, as accepted by Python's `str.strip` and regex `\s`. -/
def isPySpace (c : Char) : Bool :=
  c == ' ' || c == '\t' || c == '\n' || c == '\r' || c == Char.ofNat 11 || c == Char.ofNat 12

/-- Python `str.strip()` on a character list. -/
def pyStripL (l : List Char) : List Char :=
  ((l.dropWhile isPySpace).reverse.dropWhile isPySpace).reverse

/-- Python `str.strip()`. -/
def pyStrip (s : String) : String :=
  String.mk (pyStripL s.data)

/-- Python `str.lower()` (ASCII part; the word-character class below is
ASCII-only, so non-ASCII case folding is irrelevant to tokenisation). -/
def pyLower (s : String) : String :=
  String.mk (s.data.map Char.toLower)

/-- `utils/helpers.py` `clamp(value, lo, hi)`: `float(value)` failure
(modelled by `none`) falls back to `0.0`, then `max(lo, min(hi, v))`. -/
def clamp (value : Option ℚ) (lo hi : ℚ) : ℚ :=
  max lo (min hi (value.getD 0))

/-! ## Stable descending sort (Python `sorted(..., key=..., reverse=True)`) -/

/-- Insert `a` before the first element whose key is `≤ key a`. -/
def insDesc {α : Type} {β : Type} [LinearOrder β] (key : α → β) (a : α) : List α → List α
  | [] => [a]
  | b :: l => if key b ≤ key a then a :: b :: l else b :: insDesc key a l

/-- Stable descending sort by `key`; equal keys keep their input order,
exactly like Python's stable `sorted(..., reverse=True)`. -/
def sortDesc {α : Type} {β : Type} [LinearOrder β] (key : α → β) : List α → List α
  | [] => []
  | a :: l => insDesc key a (sortDesc key l)

theorem mem_insDesc {α β : Type} [LinearOrder β] (key : α → β) (a x : α) (l : List α) :
    x ∈ insDesc key a l ↔ x = a ∨ x ∈ l := by
  induction l with
  | nil => simp [insDesc]
  | cons b t ih =>
    by_cases h : key b ≤ key a
    · simp [insDesc, h]
    · simp [insDesc, h, ih]
      tauto

theorem mem_sortDesc {α β : Type} [LinearOrder β] (key : α → β) (x : α) (l : List α) :
    x ∈ sortDesc key l ↔ x ∈ l := by
  induction l with
  | nil => simp [sortDesc]
  | cons a t ih => simp [sortDesc, mem_insDesc, ih]

theorem length_insDesc {α β : Type} [LinearOrder β] (key : α → β) (a : α) (l : List α) :
    (insDesc key a l).length = l.length + 1 := by
  induction l with
  | nil => simp [insDesc]
  | cons b t ih =>
    by_cases h : key b ≤ key a
    · simp [insDesc, h]
    · simp [insDesc, h, ih]

theorem length_sortDesc {α β : Type} [LinearOrder β] (key : α → β) (l : List α) :
    (sortDesc key l).length = l.length := by
  induction l with
  | nil => rfl
  | cons a t ih => simp [sortDesc, length_insDesc, ih]

theorem pairwise_insDesc {α β : Type} [LinearOrder β] (key : α → β) (a : α) (l : List α)
    (h : l.Pairwise (fun x y => key y ≤ key x)) :
    (insDesc key a l).Pairwise (fun x y => key y ≤ key x) := by
  induction l with
  | nil => simp [insDesc]
  | cons b t ih =>
    by_cases hba : key b ≤ key a
    · rw [insDesc, if_pos hba]
      refine List.Pairwise.cons ?_ h
      intro y hy
      rcases List.mem_cons.mp hy with rfl | hyt
      · exact hba
      · exact le_trans ((List.pairwise_cons.mp h).1 y hyt) hba
    · rw [insDesc, if_neg hba]
      rcases List.pairwise_cons.mp h with ⟨hb, ht⟩
      refine List.Pairwise.cons ?_ (ih ht)
      intro y hy
      rcases (mem_insDesc key a y t).mp hy with rfl | hyt
      · exact le_of_not_le hba
      · exact hb y hyt

theorem pairwise_sortDesc {α β : Type} [LinearOrder β] (key : α → β) (l : List α) :
    (sortDesc key l).Pairwise (fun x y => key y ≤ key x) := by
  induction l with
  | nil => simp [sortDesc]
  | cons a t ih => exact pairwise_insDesc key a _ ih

/-- Stability of the sort, phrased on key-fibres: restricting the sorted list
to the elements with one fixed key gives back exactly the corresponding
restriction of the input, in input order. -/
theorem filter_key_insDesc {α β : Type} [LinearOrder β] (key : α → β) (a : α) (l : List α)
    (k : β) :
    (insDesc key a l).filter (fun x => decide (key x = k)) =
      if key a = k then a :: l.filter (fun x => decide (key x = k))
      else l.filter (fun x => decide (key x = k)) := by
  induction l with
  | nil =>
    by_cases h : key a = k <;> simp [insDesc, List.filter, h]
  | cons b t ih =>
    by_cases hba : key b ≤ key a
    · rw [insDesc, if_pos hba]
      by_cases h : key a = k <;> simp [List.filter, h]
    · have hk : ¬ key b = k ∨ ¬ key a = k := by
        by_contra hc
        push_neg at hc
        exact hba (le_of_eq (hc.1.trans hc.2.symm))
      rw [insDesc, if_neg hba]
      by_cases hb : key b = k
      · have ha : ¬ key a = k := by tauto
        simp [List.filter, hb, ih, ha]
      · simp [List.filter, hb, ih]

theorem filter_key_sortDesc {α β : Type} [LinearOrder β] (key : α → β) (l : List α) (k : β) :
    (sortDesc key l).filter (fun x => decide (key x = k)) =
      l.filter (fun x => decide (key x = k)) := by
  induction l with
  | nil => rfl
  | cons a t ih =>
    rw [sortDesc, filter_key_insDesc, ih]
    by_cases h : key a = k <;> simp [List.filter, h]

/-! ## `_norm_words` (memory_sqlite.py lines 45–53) -/

/-- The apostrophe character. -/
def aposChar : Char := Char.ofNat 39

/-- Character class `[a-zA-Z0-9']` of the `_norm_words` regex. -/
def isWordChar (c : Char) : Bool :=
  decide ('a' ≤ c ∧ c ≤ 'z') || decide ('A' ≤ c ∧ c ≤ 'Z') ||
  decide ('0' ≤ c ∧ c ≤ '9') || c == aposChar

/-- Fuelled scanner for `re.findall(r"[a-zA-Z0-9']{2,}", t)`: collect the
maximal runs of word characters of length at least 2, in order of
occurrence.  (Fuel only serves structural recursion; `findTokens` below
supplies enough of it, see `findTokens_cons`.) -/
def findTokensF : ℕ → List Char → List (List Char)
  | _, [] => []
  | 0, _ :: _ => []
  | fuel + 1, c :: rest =>
    if isWordChar c then
      let run := c :: rest.takeWhile isWordChar
      if 2 ≤ run.length then run :: findTokensF fuel (rest.dropWhile isWordChar)
      else findTokensF fuel (rest.dropWhile isWordChar)
    else findTokensF fuel rest

/-- `re.findall(r"[a-zA-Z0-9']{2,}", t)`: the maximal runs of word
characters having length at least 2, in order of occurrence.  (The class
cannot match a shorter-than-maximal run followed by more class characters,
so greedy matching is exactly maximal munch.) -/
def findTokens (l : List Char) : List (List Char) := findTokensF l.length l

theorem findTokensF_fuel (l : List Char) : ∀ f f', l.length ≤ f → l.length ≤ f' →
    findTokensF f l = findTokensF f' l := by
  generalize hn : l.length = n
  induction n using Nat.strong_induction_on generalizing l with
  | _ n ih =>
    intro f f' hf hf'
    match l, f, f' with
    | [], f, f' => cases f <;> cases f' <;> rfl
    | c :: rest, 0, _ => simp at hn; omega
    | c :: rest, _ + 1, 0 => simp at hn; omega
    | c :: rest, f + 1, f' + 1 =>
      simp only [List.length_cons] at hn
      rw [findTokensF, findTokensF]
      by_cases hc : isWordChar c
      · simp only [if_pos hc]
        have hd : (rest.dropWhile isWordChar).length < n := by
          have := (List.dropWhile_sublist (l := rest) isWordChar).length_le
          omega
        have hdf : (rest.dropWhile isWordChar).length ≤ f := by
          have := (List.dropWhile_sublist (l := rest) isWordChar).length_le
          omega
        have hdf' : (rest.dropWhile isWordChar).length ≤ f' := by
          have := (List.dropWhile_sublist (l := rest) isWordChar).length_le
          omega
        rw [ih _ hd _ rfl _ _ hdf hdf']
      · simp only [if_neg hc]
        exact ih _ (by omega) rest rfl f f' (by omega) (by omega)

theorem findTokens_cons (c : Char) (rest : List Char) :
    findTokens (c :: rest) =
      if isWordChar c then
        if 2 ≤ (c :: rest.takeWhile isWordChar).length then
          (c :: rest.takeWhile isWordChar) :: findTokens (rest.dropWhile isWordChar)
        else findTokens (rest.dropWhile isWordChar)
      else findTokens rest := by
  show findTokensF (rest.length + 1) (c :: rest) = _
  rw [findTokensF]
  have hd := (List.dropWhile_sublist (l := rest) isWordChar).length_le
  by_cases hc : isWordChar c
  · simp only [if_pos hc]
    rw [findTokensF_fuel _ _ _ hd (le_refl _)]
    rfl
  · simp only [if_neg hc]
    rfl

/-- The `seen`-set loop of `_norm_words`: keep the first occurrence of each
word, preserving order. -/
def dedupSeen : List String → List String → List String
  | [], _ => []
  | w :: ws, seen => if w ∈ seen then dedupSeen ws seen else w :: dedupSeen ws (w :: seen)

/-- `memory_sqlite._norm_words`: lower-case, tokenise, deduplicate keeping
first occurrences. -/
def _norm_words (s : String) : List String :=
  dedupSeen ((findTokens ((pyLower s).data)).map (fun cs => String.mk cs)) []

/-! ## Parsed JSON values (`json.loads` output) -/

/-- A parsed Python JSON value: `None`, `bool`, numbers, `str`, `list`, `dict`. -/
inductive JValue : Type
  | null
  | bool (b : Bool)
  | num (q : ℚ)
  | str (s : String)
  | arr (xs : List JValue)
  | obj (kvs : List (String × JValue))

/-- A single-quote character, for Python `repr` of strings. -/
def sq : String := String.mk [aposChar]

/-- An opening brace, for Python `repr` of dicts. -/
def lbr : String := String.mk [Char.ofNat 123]

/-- A closing brace, for Python `repr` of dicts. -/
def rbr : String := String.mk [Char.ofNat 125]

mutual

/-- Python `repr` of a parsed JSON value (numeric rendering is the rational
`toString`; the claims below never inspect the rendering of numbers or
containers, only of strings, which `str`/`repr` pass through). -/
def pyRepr : JValue → String
  | .null => "None"
  | .bool true => "True"
  | .bool false => "False"
  | .num q => toString q
  | .str s => sq ++ s ++ sq
  | .arr xs => "[" ++ String.intercalate ", " (pyReprList xs) ++ "]"
  | .obj kvs => lbr ++ String.intercalate ", " (pyReprKVs kvs) ++ rbr

def pyReprList : List JValue → List String
  | [] => []
  | x :: xs => pyRepr x :: pyReprList xs

def pyReprKVs : List (String × JValue) → List String
  | [] => []
  | kv :: kvs => (sq ++ kv.1 ++ sq ++ ": " ++ pyRepr kv.2) :: pyReprKVs kvs

end

/-- Python `str(x)` applied to a parsed JSON value. -/
def pyStr : JValue → String
  | .str s => s
  | v => pyRepr v

/-- Decimal digit. -/
def isDigitChar (c : Char) : Bool := decide ('0' ≤ c ∧ c ≤ '9')

/-- Numeric value of a digit run. -/
def digitsVal (l : List Char) : ℕ :=
  l.foldl (fun acc c => acc * 10 + (c.toNat - 48)) 0

/-- Parse an unsigned decimal (`"12"`, `"1.5"`, `".5"`, `"3."`). -/
def parseUnsigned? (l : List Char) : Option ℚ :=
  let ip := l.takeWhile isDigitChar
  match l.dropWhile isDigitChar with
  | [] => if ip.isEmpty then none else some (digitsVal ip)
  | c :: frac =>
    if c == '.' && frac.all isDigitChar && (!ip.isEmpty || !frac.isEmpty) then
      some ((digitsVal ip : ℚ) + (digitsVal frac : ℚ) / ((10 : ℚ) ^ frac.length))
    else none

/-- Python `float(s)` on a string: strip, optional sign, plain decimal.
(Exponent forms and `inf`/`nan` are not modelled; on such inputs the model
returns `none`, i.e. the caller's `except` default, which is the same
clamped-to-range outcome the claims below are about.) -/
def parseFloat? (s : String) : Option ℚ :=
  match pyStripL s.data with
  | [] => none
  | c :: rest =>
    if c == '-' then (parseUnsigned? rest).map (fun q => -q)
    else if c == '+' then parseUnsigned? rest
    else parseUnsigned? (c :: rest)

/-- Python `float(x)` on a parsed JSON value; `none` models a raised
`TypeError`/`ValueError`. -/
def pyFloat? : JValue → Option ℚ
  | .num q => some q
  | .bool b => some (if b then 1 else 0)
  | .str s => parseFloat? s
  | _ => none

/-- `isinstance(x, dict)`. -/
def JValue.isObj : JValue → Bool
  | .obj _ => true
  | _ => false

/-- Python `d.get(k, default)` on a parsed JSON object. -/
def JValue.getD (j : JValue) (k : String) (d : JValue) : JValue :=
  match j with
  | .obj kvs => ((kvs.find? (fun kv => kv.1 == k)).map Prod.snd).getD d
  | _ => d

/-! ## `SQLiteMemory.redact` (memory_sqlite.py lines 184–192)

Two `re.sub` passes: first the Discord-token shape
`[MN][A-Za-z\d_-]{20,}\.[A-Za-z\d_-]{6,}\.[A-Za-z\d_-]{20,}` is replaced by
`[REDACTED_TOKEN]`, then `(?i)(api[_-]?key|secret|token|password)\s*[:=]\s*\S+`
is replaced by `\1=[REDACTED]`.  In both patterns every greedy sub-expression
ranges over a character class that excludes the character that must follow
it, so the regexes are deterministic and leftmost-greedy matching is exactly
the maximal-munch scan implemented here. -/

/-- Character class `[A-Za-z\d_-]` of the Discord-token regex. -/
def isTokChar (c : Char) : Bool :=
  decide ('a' ≤ c ∧ c ≤ 'z') || decide ('A' ≤ c ∧ c ≤ 'Z') ||
  decide ('0' ≤ c ∧ c ≤ '9') || c == '_' || c == '-'

/-- Try to match the Discord-token regex at the head of `l`; returns the
match length. -/
def m1Try (l : List Char) : Option ℕ :=
  match l with
  | [] => none
  | c :: rest =>
    if c == 'M' || c == 'N' then
      let r1 := (rest.takeWhile isTokChar).length
      if 20 ≤ r1 then
        match rest.dropWhile isTokChar with
        | '.' :: rest2 =>
          let r2 := (rest2.takeWhile isTokChar).length
          if 6 ≤ r2 then
            match rest2.dropWhile isTokChar with
            | '.' :: rest4 =>
              let r3 := (rest4.takeWhile isTokChar).length
              if 20 ≤ r3 then some (1 + r1 + 1 + r2 + 1 + r3) else none
            | _ => none
          else none
        | _ => none
      else none
    else none

theorem m1Try_bounds (l : List Char) (n : ℕ) (h : m1Try l = some n) :
    1 ≤ n ∧ n ≤ l.length := by
  match l with
  | [] => simp [m1Try] at h
  | c :: rest =>
    simp only [m1Try] at h
    split at h
    case isFalse => exact absurd h (by simp)
    case isTrue =>
      split at h
      case isFalse => exact absurd h (by simp)
      case isTrue h20 =>
        split at h
        case h_2 => exact absurd h (by simp)
        case h_1 rest2 heq =>
          split at h
          case isFalse => exact absurd h (by simp)
          case isTrue h6 =>
            split at h
            case h_2 => exact absurd h (by simp)
            case h_1 rest4 heq2 =>
              split at h
              case isFalse => exact absurd h (by simp)
              case isTrue h20b =>
                have hn := Option.some.inj h
                have e1 : (rest.takeWhile isTokChar).length +
                    (rest.dropWhile isTokChar).length = rest.length := by
                  rw [← List.length_append, List.takeWhile_append_dropWhile]
                have e2 : (rest2.takeWhile isTokChar).length +
                    (rest2.dropWhile isTokChar).length = rest2.length := by
                  rw [← List.length_append, List.takeWhile_append_dropWhile]
                have e3 : (rest4.takeWhile isTokChar).length ≤ rest4.length :=
                  (List.takeWhile_sublist _).length_le
                rw [heq] at e1
                rw [heq2] at e2
                simp only [List.length_cons] at e1 e2
                constructor
                · omega
                · simp only [List.length_cons]
                  omega

/-- The replacement text of the first `re.sub`. -/
def redactedToken : List Char := "[REDACTED_TOKEN]".data

/-- The scan of `re.sub` for the Discord-token pattern: at each position try
a match; on success emit the replacement and continue after the match. -/
def sub1Go : List Char → List Char
  | [] => []
  | c :: rest =>
    match h : m1Try (c :: rest) with
    | some n => redactedToken ++ sub1Go ((c :: rest).drop n)
    | none => c :: sub1Go rest
termination_by l => l.length
decreasing_by
  · have hb := m1Try_bounds _ _ h
    simp only [List.length_drop, List.length_cons]
    omega
  · exact Nat.lt_succ_self _

/-- Case-insensitive literal match: `litCI pat l` holds when the first
`pat.length` characters of `l` lower-case to `pat`. -/
def litCI : List Char → List Char → Bool
  | [], _ => true
  | _ :: _, [] => false
  | p :: ps, c :: cs => p == c.toLower && litCI ps cs

/-- The alternation `api[_-]?key|secret|token|password`, expanded into
first-match literals (the optional `[_-]` is a single character class, so
the expansion into three literals tried in order is exact). -/
def keyPats : List (List Char) :=
  ["api_key".data, "api-key".data, "apikey".data, "secret".data, "token".data,
   "password".data]

/-- Try to match the key-name alternation at the head of `l`; returns the
matched length. -/
def keyTry (l : List Char) : Option ℕ :=
  (keyPats.find? (fun p => litCI p l)).map List.length

/-- Try to match `(?i)(key)\s*[:=]\s*\S+` at the head of `l`; returns
(key length, total match length). -/
def m2Try (l : List Char) : Option (ℕ × ℕ) :=
  match keyTry l with
  | none => none
  | some k =>
    let r := l.drop k
    let w1 := (r.takeWhile isPySpace).length
    match r.dropWhile isPySpace with
    | [] => none
    | c :: r2 =>
      if c == ':' || c == '=' then
        let w2 := (r2.takeWhile isPySpace).length
        let v := ((r2.dropWhile isPySpace).takeWhile (fun x => !isPySpace x)).length
        if v = 0 then none else some (k, k + w1 + 1 + w2 + v)
      else none

theorem litCI_length_le (p l : List Char) (h : litCI p l = true) : p.length ≤ l.length := by
  induction p generalizing l with
  | nil => simp
  | cons a ps ih =>
    match l with
    | [] => simp [litCI] at h
    | c :: cs =>
      rw [litCI, Bool.and_eq_true] at h
      simpa using Nat.succ_le_succ (ih cs h.2)

theorem keyTry_bounds (l : List Char) (k : ℕ) (h : keyTry l = some k) :
    1 ≤ k ∧ k ≤ l.length := by
  rw [keyTry] at h
  match hf : keyPats.find? (fun p => litCI p l) with
  | none => rw [hf] at h; simp at h
  | some p =>
    rw [hf] at h
    have hp : litCI p l = true := by simpa using List.find?_some hf
    have hmem : p ∈ keyPats := List.mem_of_find?_eq_some hf
    have hk : k = p.length := by simpa using h.symm
    subst hk
    refine ⟨?_, litCI_length_le p l hp⟩
    fin_cases hmem <;> simp [keyPats]

theorem m2Try_bounds (l : List Char) (k n : ℕ) (h : m2Try l = some (k, n)) :
    1 ≤ k ∧ k + 1 ≤ n ∧ n ≤ l.length := by
  rw [m2Try] at h
  match hk : keyTry l with
  | none => rw [hk] at h; simp at h
  | some k0 =>
    rw [hk] at h
    simp only at h
    have hkb := keyTry_bounds l k0 hk
    split at h
    case h_1 heq => simp at h
    case h_2 c r2 heq =>
      split at h
      case isFalse => simp at h
      case isTrue =>
        split at h
        case isTrue => simp at h
        case isFalse hv =>
          have hkn : k0 = k ∧ k0 + ((l.drop k0).takeWhile isPySpace).length + 1 +
              (r2.takeWhile isPySpace).length +
              ((r2.dropWhile isPySpace).takeWhile (fun x => !isPySpace x)).length = n := by
            have := Option.some.inj h
            exact ⟨congrArg Prod.fst this, congrArg Prod.snd this⟩
          obtain ⟨rfl, hn⟩ := hkn
          have e1 : ((l.drop k0).takeWhile isPySpace).length +
              ((l.drop k0).dropWhile isPySpace).length = (l.drop k0).length := by
            rw [← List.length_append, List.takeWhile_append_dropWhile]
          have e2 : (r2.takeWhile isPySpace).length +
              (r2.dropWhile isPySpace).length = r2.length := by
            rw [← List.length_append, List.takeWhile_append_dropWhile]
          have e3 : ((r2.dropWhile isPySpace).takeWhile (fun x => !isPySpace x)).length ≤
              (r2.dropWhile isPySpace).length :=
            (List.takeWhile_sublist _).length_le
          rw [heq] at e1
          simp only [List.length_cons] at e1
          have e4 : (l.drop k0).length = l.length - k0 := List.length_drop k0 l
          omega

/-- The replacement tail of the second `re.sub`: `=[REDACTED]` (the matched
key name itself is preserved by the back-reference `\1`). -/
def eqRedacted : List Char := "=[REDACTED]".data

/-- The scan of `re.sub` for the key/value pattern. -/
def sub2Go : List Char → List Char
  | [] => []
  | c :: rest =>
    match h : m2Try (c :: rest) with
    | some kn => (c :: rest).take kn.1 ++ eqRedacted ++ sub2Go ((c :: rest).drop kn.2)
    | none => c :: sub2Go rest
termination_by l => l.length
decreasing_by
  · have hb := m2Try_bounds _ kn.1 kn.2 (by rw [h])
    simp only [List.length_drop, List.length_cons]
    omega
  · exact Nat.lt_succ_self _

/-- `SQLiteMemory.redact`: first pass masks Discord-token shapes, second
pass masks `key: value` secrets. -/
def redact (s : String) : String :=
  String.mk (sub2Go (sub1Go s.data))

/-! ## Data model (tables of `memory_sqlite.py`) -/

/-- The `Episode` dataclass (memory_sqlite.py lines 56–63). -/
structure Episode where
  id : ℕ
  user_id : String
  ts : ℤ
  text : String
  tags : String
  importance : ℚ
deriving DecidableEq

/-- A row of the `episodes` table (embeddings are stored as blobs; the blob
encoding is invertible, so the model stores the vector itself; an empty
vector models an empty — hence Python-falsy — blob). -/
structure EpisodeRow where
  id : ℕ
  user_id : String
  ts : ℤ
  text : String
  tags : String
  importance : ℚ
  times_used : ℕ
  last_used_ts : ℤ
  embedding : Option (List ℚ)
deriving DecidableEq

/-- A row of the `facts` table. -/
structure FactRow where
  user_id : String
  key : String
  value : String
  confidence : ℚ
  updated_ts : ℤ
deriving DecidableEq

/-- A row of the `messages` table. -/
structure MsgRow where
  id : ℕ
  user_id : String
  ts : ℤ
  role : String
  content : String
deriving DecidableEq

/-- The state of one `SQLiteMemory` instance: the three tables (in table
scan order), the in-memory per-user message counters, and the episode
autoincrement cursor. -/
structure MemState where
  facts : List FactRow
  episodes : List EpisodeRow
  messages : List MsgRow
  msg_counter : String → ℕ
  next_ep_id : ℕ
  next_msg_id : ℕ

/-- The `memory_vector` module, as seen from `memory_sqlite`:
`embed_text` wraps the external Ollama call (`none` = failure), and `cos`
is the scalar cosine-similarity kernel of `find_similar` (the float value
`matrix_normalized @ query_normalized` per candidate, which involves real
square roots and is therefore a parameter of the embedding; the structural
parts of `find_similar` — blob filtering, thresholding, sorting,
truncation — are modelled exactly below). -/
structure VectorMod where
  embed_text : String → Option (List ℚ)
  cos : List ℚ → List ℚ → ℚ

/-- The import environment: `_get_vector_module()` yields `none` when
`memory_vector` is unavailable. -/
structure Env where
  mv : Option VectorMod

/-- View an `episodes` row as the `Episode` dataclass, as the retrieval
queries do. -/
def EpisodeRow.toEp (r : EpisodeRow) : Episode :=
  ⟨r.id, r.user_id, r.ts, r.text, r.tags, r.importance⟩

/-! ## Facts (memory_sqlite.py lines 198–254) -/

/-- `SQLiteMemory.upsert_fact`: normalise key/value, clamp confidence,
no-op on empty key or value, insert-or-replace on `(user_id, key)`. -/
def upsert_fact (s : MemState) (uid : String) (key value : String)
    (confidence : Option ℚ) (now : ℤ) : MemState :=
  let key := pyLower (pyStrip key)
  let value := pyStrip value
  let conf := clamp confidence 0 1
  if key = "" ∨ value = "" then s
  else if s.facts.any (fun f => f.user_id == uid && f.key == key) then
    { s with facts := s.facts.map (fun f =>
        if f.user_id == uid && f.key == key then
          { f with value := value, confidence := conf, updated_ts := now }
        else f) }
  else
    { s with facts := s.facts ++ [⟨uid, key, value, conf, now⟩] }

/-! ## Episodes (memory_sqlite.py lines 260–357) -/

/-- `SQLiteMemory.add_episode`: strip text (no-op when empty), join
normalised tags, clamp importance, `ts or now_ts()` (Python `or`, so a
zero timestamp also falls back to `now`), embed via the vector module when
enabled (an empty returned vector is falsy and is not stored). -/
def add_episode (env : Env) (s : MemState) (uid : String) (text : String)
    (tags : List String) (importance : Option ℚ) (ts : Option ℤ) (embed : Bool)
    (now : ℤ) : MemState :=
  let text := pyStrip text
  if text = "" then s
  else
    let tags_str := String.intercalate ", "
      ((tags.filter (fun t => pyStrip t ≠ "")).map (fun t => pyLower (pyStrip t)))
    let imp := clamp importance 0 1
    let ts' : ℤ := match ts with
      | none => now
      | some t => if t = 0 then now else t
    let blob : Option (List ℚ) :=
      if embed then
        match env.mv with
        | none => none
        | some m =>
          match m.embed_text (pyStrip (text ++ " " ++ tags_str)) with
          | none => none
          | some e => if e = [] then none else some e
      else none
    { s with
      episodes := s.episodes ++ [⟨s.next_ep_id, uid, ts', text, tags_str, imp, 0, 0, blob⟩],
      next_ep_id := s.next_ep_id + 1 }

/-- `SQLiteMemory._fetch_candidate_episodes`: `SELECT ... WHERE user_id=?
ORDER BY ts DESC LIMIT ?`. -/
def fetchCandidates (s : MemState) (uid : String) (lim : ℕ) : List Episode :=
  ((sortDesc (fun r : EpisodeRow => r.ts) (s.episodes.filter (fun r => r.user_id == uid))).take
    lim).map EpisodeRow.toEp

/-- The word set an episode contributes to lexical matching:
`_norm_words(f"{ep.text} {ep.tags}".lower())`. -/
def epWords (ep : Episode) : List String :=
  _norm_words (pyLower (ep.text ++ " " ++ ep.tags))

/-- `len(qwords.intersection(ewords))` for one candidate, with `qwords`
the normalised query tokens. -/
def overlapCount (qwords : List String) (ep : Episode) : ℕ :=
  ((epWords ep).filter (fun w => w ∈ qwords)).length

/-- The age → recency computation shared by both retrieval paths. -/
def recencyOf (now : ℤ) (ts : ℤ) : ℚ :=
  let age_days : ℚ := max 0 (((now - ts : ℤ) : ℚ) / 86400)
  clamp (some (1 - age_days / 30)) 0 1

/-- The scored candidate list built by the loop of
`SQLiteMemory.retrieve_relevant` (zero-overlap candidates are skipped). -/
def scoredPairs (cands : List Episode) (now : ℤ) (qwords : List String) :
    List (ℚ × Episode) :=
  cands.filterMap (fun ep =>
    let ov := overlapCount qwords ep
    if ov = 0 then none
    else some (((ov : ℚ) * 2 + ep.importance * (3/2) + recencyOf now ep.ts * 1), ep))

/-- The pure core of `SQLiteMemory.retrieve_relevant` on a given candidate
list: score, stable-sort descending, truncate.  (The `times_used` update it
performs afterwards does not affect the returned list.) -/
def retrieveCore (cands : List Episode) (now : ℤ) (query : String) (lim : ℕ) :
    List Episode :=
  let query := pyStrip query
  if query = "" then []
  else
    let qwords := _norm_words query
    if qwords = [] then []
    else ((sortDesc Prod.fst (scoredPairs cands now qwords)).take lim).map Prod.snd

/-- `SQLiteMemory.retrieve_relevant`: lexical retrieval over the most
recent 160 episodes. -/
def retrieve_relevant (s : MemState) (uid : String) (query : String) (lim : ℕ)
    (now : ℤ) : List Episode :=
  retrieveCore (fetchCandidates s uid 160) now query lim

/-! ## Vector retrieval (memory_vector.py `find_similar`,
memory_sqlite.py lines 359–473) -/

/-- Sum of squares; zero iff the float vector has zero norm, which is the
`query_norm == 0` early-exit test of `find_similar`. -/
def sumSq (v : List ℚ) : ℚ := (v.map (fun x => x * x)).sum

/-- `memory_vector.find_similar`: drop falsy blobs, score every candidate
against the query, keep scores `>= threshold`, sort descending (stable),
truncate to `top_k`. -/
def find_similar (cos : List ℚ → List ℚ → ℚ) (qe : List ℚ)
    (cands : List (ℕ × List ℚ)) (top_k : ℕ) (threshold : ℚ) : List (ℕ × ℚ) :=
  if qe = [] ∨ cands = [] then []
  else if sumSq qe = 0 then []
  else
    let embs := cands.filter (fun p => !p.2.isEmpty)
    if embs = [] then []
    else
      let scored := (embs.map (fun p => (p.1, cos qe p.2))).filter
        (fun p => threshold ≤ p.2)
      (sortDesc Prod.snd scored).take top_k

/-- The `SELECT ... WHERE user_id = ? AND embedding IS NOT NULL ORDER BY
ts DESC LIMIT 500` candidate pool of `retrieve_relevant_vector`. -/
def vectorPool (s : MemState) (uid : String) : List EpisodeRow :=
  (sortDesc (fun r : EpisodeRow => r.ts)
    (s.episodes.filter (fun r => r.user_id == uid && !r.embedding.isNone))).take 500

/-- `SQLiteMemory.retrieve_relevant_vector`: vector retrieval with
transparent fallback to `retrieve_relevant` when the vector module is
missing, the query embedding is falsy, no row carries an embedding, or no
candidate passes the similarity threshold. -/
def retrieve_relevant_vector (env : Env) (s : MemState) (uid : String)
    (query : String) (lim : ℕ) (similarity_threshold recency_weight : ℚ)
    (now : ℤ) : List Episode :=
  let query := pyStrip query
  if query = "" then []
  else
    match env.mv with
    | none => retrieve_relevant s uid query lim now
    | some m =>
      match m.embed_text query with
      | none => retrieve_relevant s uid query lim now
      | some qe =>
        if qe = [] then retrieve_relevant s uid query lim now
        else
          let rows := vectorPool s uid
          if rows = [] then retrieve_relevant s uid query lim now
          else
            let candidates := rows.filterMap (fun r =>
              match r.embedding with
              | some e => if e = [] then none else some (r.id, e)
              | none => none)
            let similar := find_similar m.cos qe candidates (lim * 2)
              similarity_threshold
            if similar = [] then retrieve_relevant s uid query lim now
            else
              let scored := similar.filterMap (fun p =>
                match rows.find? (fun r => r.id == p.1) with
                | none => none
                | some row =>
                  some ((p.2 * (1 - recency_weight) +
                    recencyOf now row.ts * recency_weight), row.toEp))
              ((sortDesc Prod.fst scored).take lim).map Prod.snd

/-! ## Message log and extraction counters (memory_sqlite.py lines 489–529) -/

/-- `SQLiteMemory.add_message`: normalise role, redact content, no-op on
empty content, append and bump the per-user counter. -/
def add_message (s : MemState) (uid : String) (role content : String) (ts : Option ℤ)
    (now : ℤ) : MemState :=
  let role := pyLower (pyStrip role)
  let content := redact (pyStrip content)
  let role := if role = "user" ∨ role = "assistant" ∨ role = "system" then role else "user"
  if content = "" then s
  else
    let ts' : ℤ := match ts with
      | none => now
      | some t => if t = 0 then now else t
    { s with
      messages := s.messages ++ [⟨s.next_msg_id, uid, ts', role, content⟩],
      next_msg_id := s.next_msg_id + 1,
      msg_counter := fun u => if u = uid then s.msg_counter uid + 1 else s.msg_counter u }

/-- `SQLiteMemory.get_recent_messages`: last `lim` messages by timestamp,
returned oldest-first as (role, content) pairs. -/
def get_recent_messages (s : MemState) (uid : String) (lim : ℕ) :
    List (String × String) :=
  (((sortDesc (fun r : MsgRow => r.ts) (s.messages.filter (fun r => r.user_id == uid))).take
    lim).map (fun r => (r.role, r.content))).reverse

/-- `SQLiteMemory.should_extract`. -/
def should_extract (s : MemState) (uid : String) (every_n : ℕ) : Bool :=
  every_n ≤ s.msg_counter uid

/-- `SQLiteMemory.reset_extract_counter`. -/
def reset_extract_counter (s : MemState) (uid : String) : MemState :=
  { s with msg_counter := fun u => if u = uid then 0 else s.msg_counter u }

/-! ## Pruning (memory_sqlite.py lines 157–182) -/

/-- The ids selected by `SELECT id FROM episodes WHERE user_id=? ORDER BY
ts DESC LIMIT ?`. -/
def pruneKeepEp (s : MemState) (uid : String) (keep : ℕ) : List ℕ :=
  ((sortDesc (fun r : EpisodeRow => r.ts)
    (s.episodes.filter (fun r => r.user_id == uid))).take keep).map EpisodeRow.id

/-- The ids selected by `SELECT id FROM messages WHERE user_id=? ORDER BY
ts DESC LIMIT ?`. -/
def pruneKeepMsg (s : MemState) (uid : String) (keep : ℕ) : List ℕ :=
  ((sortDesc (fun r : MsgRow => r.ts)
    (s.messages.filter (fun r => r.user_id == uid))).take keep).map MsgRow.id

/-- `SQLiteMemory.prune`: delete every episode (message) of the user whose
id is not among the `keep` most recent by timestamp.  Surviving rows keep
their table order. -/
def prune (s : MemState) (uid : String) (keepE keepM : ℕ) : MemState :=
  { s with
    episodes := s.episodes.filter
      (fun r => !(r.user_id == uid) || r.id ∈ pruneKeepEp s uid keepE),
    messages := s.messages.filter
      (fun r => !(r.user_id == uid) || r.id ∈ pruneKeepMsg s uid keepM) }

/-! ## LLM extraction (memory_sqlite.py lines 531–605,
personality/memory_long.py lines 258–270) -/

/-- Python `isinstance(x, list) and x or []` shape used for the two arrays:
a non-list becomes the empty batch. -/
def jItems : JValue → List JValue
  | .arr xs => xs
  | _ => []

/-- One iteration of the `facts` loop of `extract_and_store`: `none`
models `continue` (non-dict item, empty stripped key/value, key > 48 chars
or value > 240 chars), `some` the issued upsert. -/
def factItem? (f : JValue) : Option (String × String × ℚ) :=
  match f with
  | .obj kvs =>
    let key := pyStrip (pyStr (JValue.getD (.obj kvs) "key" (.str "")))
    let val := pyStrip (pyStr (JValue.getD (.obj kvs) "value" (.str "")))
    let conf := (pyFloat? (JValue.getD (.obj kvs) "confidence" (.num (7/10)))).getD (7/10)
    if key = "" ∨ val = "" then none
    else if 48 < key.length ∨ 240 < val.length then none
    else some (key, val, conf)
  | _ => none

/-- The upsert calls issued by the `facts` loop of `extract_and_store`
(the loop with its `continue`s is exactly a `filterMap`). -/
def factWrites (fs : List JValue) : List (String × String × ℚ) :=
  fs.filterMap factItem?

/-- `[str(t)[:24] for t in tags if str(t).strip()][:8]`, with a non-list
`tags` value first replaced by `[]`. -/
def tagStrs (tags : JValue) : List String :=
  match tags with
  | .arr ts => ((ts.filter (fun t => pyStrip (pyStr t) != "")).map
      (fun t => String.mk ((pyStr t).data.take 24))).take 8
  | _ => []

/-- One iteration of the `episodes` loop of `extract_and_store`: `none`
models `continue` (non-dict item, empty or > 280 char stripped text). -/
def epItem? (e : JValue) : Option (String × List String × ℚ) :=
  match e with
  | .obj kvs =>
    let text := pyStrip (pyStr (JValue.getD (.obj kvs) "text" (.str "")))
    if text = "" ∨ 280 < text.length then none
    else
      let tags := tagStrs (JValue.getD (.obj kvs) "tags" (.arr []))
      let imp := (pyFloat? (JValue.getD (.obj kvs) "importance" (.num (1/2)))).getD (1/2)
      some (text, tags, imp)
  | _ => none

/-- The `add_episode` calls issued by the `episodes` loop of
`extract_and_store` (the loop with its `continue`s is exactly a
`filterMap`). -/
def epWrites (es : List JValue) : List (String × List String × ℚ) :=
  es.filterMap epItem?

/-- `SQLiteMemory.extract_and_store`.  The LLM call followed by
`json.loads` is modelled by `llm` (`none` = the string failed top-level
JSON parsing); the fixed system prompt prepended to the window does not
constrain the arbitrary oracle and is omitted.  The loops' interleaved
writes are collected by `factWrites`/`epWrites` and folded in the same
order (the skip conditions read only the item, never the store). -/
def extract_and_store (env : Env) (s : MemState) (uid : String)
    (llm : List (String × String) → Option JValue) (window : ℕ) (now : ℤ) : MemState :=
  if get_recent_messages s uid window = [] then s
  else
    match llm (get_recent_messages s uid window) with
    | none => s
    | some data =>
      if !data.isObj then s
      else
        prune
          ((epWrites ((jItems (data.getD "episodes" (.arr []))).take 3)).foldl
            (fun st w => add_episode env st uid w.1 w.2.1 (some w.2.2) none true now)
            ((factWrites ((jItems (data.getD "facts" (.arr []))).take 10)).foldl
              (fun st w => upsert_fact st uid w.1 w.2.1 (some w.2.2) now) s))
          uid 600 300

/-- `Long_Term_Memory.maybe_extract`: run extraction when due, then reset
the per-user counter (the reset is unconditional once extraction was
attempted — `extract_and_store` swallows parse failures, so the facade
cannot distinguish them from successes). -/
def maybe_extract (env : Env) (s : MemState) (uid : String)
    (llm : List (String × String) → Option JValue) (now : ℤ) : MemState :=
  if !should_extract s uid 8 then s
  else reset_extract_counter (extract_and_store env s uid llm 12 now) uid

/-! ## Claim-side (specification) definitions

These re-state, in the words of the specification and claims, quantities
that the source computes its own way; the theorems below connect the two. -/

/-- The score formula of claim C5:
`2×overlap_count + 1.5×importance + 1.0×recency`,
`recency = clamp(1 − age_days/30, 0, 1)`,
`age_days = (now − episode.ts)/86400` floored at 0. -/
def specScore (now : ℤ) (qwords : List String) (ep : Episode) : ℚ :=
  let age_days : ℚ := max 0 (((now - ep.ts : ℤ) : ℚ) / 86400)
  let recency : ℚ := max 0 (min 1 (1 - age_days / 30))
  2 * (overlapCount qwords ep : ℚ) + (3/2) * ep.importance + 1 * recency

/-- Claim C3's per-item fact validation: key non-empty and ≤ 48 chars,
value non-empty and ≤ 240 chars. -/
def specFactValid (f : JValue) : Option (String × String × ℚ) :=
  match f with
  | .obj kvs =>
    let key := pyStrip (pyStr (JValue.getD (.obj kvs) "key" (.str "")))
    let val := pyStrip (pyStr (JValue.getD (.obj kvs) "value" (.str "")))
    let conf := (pyFloat? (JValue.getD (.obj kvs) "confidence" (.num (7/10)))).getD (7/10)
    if key ≠ "" ∧ key.length ≤ 48 ∧ val ≠ "" ∧ val.length ≤ 240 then some (key, val, conf)
    else none
  | _ => none

/-- Claim C3's per-item episode validation: text non-empty and ≤ 280 chars. -/
def specEpValid (e : JValue) : Option (String × List String × ℚ) :=
  match e with
  | .obj kvs =>
    let text := pyStrip (pyStr (JValue.getD (.obj kvs) "text" (.str "")))
    if text ≠ "" ∧ text.length ≤ 280 then
      some (text, tagStrs (JValue.getD (.obj kvs) "tags" (.arr [])),
        (pyFloat? (JValue.getD (.obj kvs) "importance" (.num (1/2)))).getD (1/2))
    else none
  | _ => none

/-- Claim C7's "appears exactly once, in first-occurrence order":
the canonical first-occurrence deduplication. -/
def firstOccDedup : List String → List String
  | [] => []
  | w :: ws => w :: (firstOccDedup ws).filter (fun x => x != w)

/-- Claim C9's invariant on the `facts` table. -/
def factsInRange (l : List FactRow) : Prop :=
  ∀ f ∈ l, 0 ≤ f.confidence ∧ f.confidence ≤ 1

instance (l : List FactRow) : Decidable (factsInRange l) :=
  inferInstanceAs (Decidable (∀ f ∈ l, 0 ≤ f.confidence ∧ f.confidence ≤ 1))

/-- Claim C9's invariant on the `episodes` table. -/
def episodesInRange (l : List EpisodeRow) : Prop :=
  ∀ e ∈ l, 0 ≤ e.importance ∧ e.importance ≤ 1

instance (l : List EpisodeRow) : Decidable (episodesInRange l) :=
  inferInstanceAs (Decidable (∀ e ∈ l, 0 ≤ e.importance ∧ e.importance ≤ 1))

/-! ## Character-level lemmas -/

theorem char_ofNat_toNat (n : ℕ) (h : n < 128) : (Char.ofNat n).toNat = n := by
  unfold Char.ofNat
  rw [dif_pos (Or.inl (by omega))]
  rfl

theorem char_le_iff (c d : Char) : c ≤ d ↔ c.toNat ≤ d.toNat := by
  rw [Char.le_def]
  rfl

theorem sp_cases (c : Char) (h : isPySpace c = true) :
    c = ' ' ∨ c = '\t' ∨ c = '\n' ∨ c = '\r' ∨ c = Char.ofNat 11 ∨ c = Char.ofNat 12 := by
  simp only [isPySpace, Bool.or_eq_true, beq_iff_eq] at h
  tauto

theorem sp_toLower (c : Char) (h : isPySpace c = true) : Char.toLower c = c := by
  rcases sp_cases c h with rfl | rfl | rfl | rfl | rfl | rfl <;> decide

theorem sp_not_word (c : Char) (h : isPySpace c = true) : isWordChar c = false := by
  rcases sp_cases c h with rfl | rfl | rfl | rfl | rfl | rfl <;> decide

theorem sp_not_tok (c : Char) (h : isPySpace c = true) : isTokChar c = false := by
  rcases sp_cases c h with rfl | rfl | rfl | rfl | rfl | rfl <;> decide

theorem toLower_toNat (c : Char) :
    (Char.toLower c).toNat = if c.toNat ≥ 65 ∧ c.toNat ≤ 90 then c.toNat + 32 else c.toNat := by
  show (if c.toNat ≥ 65 ∧ c.toNat ≤ 90 then Char.ofNat (c.toNat + 32) else c).toNat = _
  by_cases h : c.toNat ≥ 65 ∧ c.toNat ≤ 90
  · rw [if_pos h, if_pos h, char_ofNat_toNat _ (by omega)]
  · rw [if_neg h, if_neg h]

theorem toLower_not_upper (c : Char) :
    decide ('A' ≤ Char.toLower c ∧ Char.toLower c ≤ 'Z') = false := by
  rw [decide_eq_false_iff_not]
  rintro ⟨hA, hZ⟩
  rw [char_le_iff] at hA hZ
  have hl := toLower_toNat c
  have h65 : ('A').toNat = 65 := by decide
  have h90 : ('Z').toNat = 90 := by decide
  rw [h65] at hA
  rw [h90] at hZ
  by_cases h : c.toNat ≥ 65 ∧ c.toNat ≤ 90
  · rw [if_pos h] at hl
    omega
  · rw [if_neg h] at hl
    omega

theorem toLower_idem (c : Char) : Char.toLower (Char.toLower c) = Char.toLower c := by
  show (if (Char.toLower c).toNat ≥ 65 ∧ (Char.toLower c).toNat ≤ 90 then
      Char.ofNat ((Char.toLower c).toNat + 32) else Char.toLower c) = Char.toLower c
  rw [if_neg]
  have hl := toLower_toNat c
  by_cases h : c.toNat ≥ 65 ∧ c.toNat ≤ 90
  · rw [if_pos h] at hl
    omega
  · rw [if_neg h] at hl
    omega

/-! ## `dropWhile`/`takeWhile` helper lemmas -/

theorem dropWhile_head_not {α : Type} (p : α → Bool) (l : List α) (c : α) (t : List α)
    (h : l.dropWhile p = c :: t) : p c = false := by
  induction l with
  | nil => simp at h
  | cons a l ih =>
    rw [List.dropWhile_cons] at h
    by_cases ha : p a = true
    · rw [if_pos ha] at h
      exact ih h
    · rw [if_neg ha] at h
      obtain ⟨rfl, -⟩ := List.cons.inj h
      exact Bool.not_eq_true _ |>.mp ha

theorem dropWhile_eq_self_of_head {α : Type} (p : α → Bool) (l : List α)
    (h : ∀ c t, l = c :: t → p c = false) : l.dropWhile p = l := by
  match l with
  | [] => rfl
  | c :: t =>
    rw [List.dropWhile_cons, if_neg]
    simp [h c t rfl]

theorem takeWhile_nil_of_head {α : Type} (p : α → Bool) (l : List α)
    (h : ∀ c t, l = c :: t → p c = false) : l.takeWhile p = [] := by
  match l with
  | [] => rfl
  | c :: t =>
    rw [List.takeWhile_cons, if_neg]
    simp [h c t rfl]

theorem dropWhile_getLast {α : Type} (p : α → Bool) (l : List α)
    (h : l.dropWhile p ≠ []) : (l.dropWhile p).getLast? = l.getLast? := by
  induction l with
  | nil => simp at h
  | cons a l ih =>
    rw [List.dropWhile_cons]
    by_cases ha : p a = true
    · rw [if_pos ha]
      rw [List.dropWhile_cons, if_pos ha] at h
      have hl : l ≠ [] := by
        rintro rfl
        exact h rfl
      rw [ih h]
      match l, hl with
      | b :: l', _ => rfl
    · rw [if_neg ha]

/-! ## `pyStripL` lemmas -/

theorem pyStripL_nil : pyStripL [] = [] := rfl

theorem pyStripL_split (l : List Char) :
    ∃ u v, l = u ++ pyStripL l ++ v ∧ (∀ c ∈ u, isPySpace c = true) ∧
      (∀ c ∈ v, isPySpace c = true) := by
  refine ⟨l.takeWhile isPySpace,
    (((l.dropWhile isPySpace).reverse).takeWhile isPySpace).reverse, ?_, ?_, ?_⟩
  · conv_lhs => rw [← List.takeWhile_append_dropWhile isPySpace l]
    rw [List.append_assoc]
    congr 1
    conv_lhs => rw [← List.reverse_reverse (l.dropWhile isPySpace),
      ← List.takeWhile_append_dropWhile isPySpace (l.dropWhile isPySpace).reverse]
    rw [List.reverse_append]
    rfl
  · intro c hc
    exact List.mem_takeWhile_imp hc
  · intro c hc
    rw [List.mem_reverse] at hc
    exact List.mem_takeWhile_imp hc

theorem pyStripL_head_not (l : List Char) (c : Char) (t : List Char)
    (h : pyStripL l = c :: t) : isPySpace c = false := by
  unfold pyStripL at h
  set X := l.dropWhile isPySpace with hX
  set W := X.reverse.dropWhile isPySpace with hW
  have hWne : W ≠ [] := by
    intro he
    rw [he] at h
    simp at h
  have hlast : W.getLast? = X.reverse.getLast? := dropWhile_getLast _ _ hWne
  have hXne : X ≠ [] := by
    intro he
    rw [he] at hW
    simp [hW] at hWne
  have hXhead : ∃ d t', X = d :: t' ∧ isPySpace d = false := by
    match hXe : X, hXne with
    | d :: t', _ =>
      exact ⟨d, t', rfl, dropWhile_head_not isPySpace l d t' (hX ▸ hXe ▸ rfl)⟩
  obtain ⟨d, t', hXd, hd⟩ := hXhead
  have h1 : W.reverse.head? = some c := by
    rw [h]
    rfl
  rw [List.head?_reverse, hlast] at h1
  have h2 : X.reverse.getLast? = X.head? := by
    rw [← List.head?_reverse, List.reverse_reverse]
  rw [h2, hXd] at h1
  have : d = c := by simpa using h1
  rw [← this]
  exact hd

theorem pyStripL_revhead_not (l : List Char) (c : Char) (t : List Char)
    (h : (pyStripL l).reverse = c :: t) : isPySpace c = false := by
  unfold pyStripL at h
  rw [List.reverse_reverse] at h
  exact dropWhile_head_not isPySpace _ c t h

theorem pyStripL_idem (l : List Char) : pyStripL (pyStripL l) = pyStripL l := by
  have h1 : (pyStripL l).dropWhile isPySpace = pyStripL l :=
    dropWhile_eq_self_of_head _ _ (fun c t h => pyStripL_head_not l c t h)
  show (((pyStripL l).dropWhile isPySpace).reverse.dropWhile isPySpace).reverse = pyStripL l
  rw [h1]
  have h2 : (pyStripL l).reverse.dropWhile isPySpace = (pyStripL l).reverse :=
    dropWhile_eq_self_of_head _ _ (fun c t h => pyStripL_revhead_not l c t h)
  rw [h2, List.reverse_reverse]

theorem pyStrip_idem (s : String) : pyStrip (pyStrip s) = pyStrip s := by
  show String.mk (pyStripL (pyStripL s.data)) = String.mk (pyStripL s.data)
  rw [pyStripL_idem]

/-! ## `findTokens` lemmas -/

theorem findTokens_front (u l : List Char) (hu : ∀ c ∈ u, isWordChar c = false) :
    findTokens (u ++ l) = findTokens l := by
  induction u with
  | nil => rfl
  | cons c u' ih =>
    have hc : isWordChar c = false := hu c (by simp)
    rw [List.cons_append, findTokens_cons, if_neg (by simp [hc])]
    exact ih (fun d hd => hu d (by simp [hd]))

theorem findTokens_nil : findTokens [] = [] := rfl

theorem findTokens_all_not (u : List Char) (hu : ∀ c ∈ u, isWordChar c = false) :
    findTokens u = [] := by
  have := findTokens_front u [] hu
  rwa [List.append_nil, findTokens_nil] at this

theorem findTokens_back (l u : List Char) (hu : ∀ c ∈ u, isWordChar c = false) :
    findTokens (l ++ u) = findTokens l := by
  generalize hn : l.length = n
  induction n using Nat.strong_induction_on generalizing l with
  | _ n ih =>
    match l with
    | [] =>
      rw [List.nil_append, findTokens_all_not u hu, findTokens_nil]
    | c :: rest =>
      by_cases hc : isWordChar c = true
      · rw [List.cons_append, findTokens_cons, if_pos hc, findTokens_cons, if_pos hc]
        by_cases hdw : rest.dropWhile isWordChar = []
        · have htw : rest.takeWhile isWordChar = rest := by
            have := List.takeWhile_append_dropWhile isWordChar rest
            rwa [hdw, List.append_nil] at this
          have htwl : (rest.takeWhile isWordChar).length = rest.length := by rw [htw]
          have h1 : (rest ++ u).takeWhile isWordChar = rest := by
            rw [List.takeWhile_append, if_pos htwl,
              takeWhile_nil_of_head isWordChar u
                (fun d t' hdt => hu d (by rw [hdt]; simp)), List.append_nil]
          have h2 : (rest ++ u).dropWhile isWordChar = u := by
            rw [List.dropWhile_append, if_pos (by simp [hdw]),
              dropWhile_eq_self_of_head isWordChar u
                (fun d t' hdt => hu d (by rw [hdt]; simp))]
          rw [h1, h2, htw, hdw, findTokens_all_not u hu, findTokens_nil]
        · have htwl : ¬ (rest.takeWhile isWordChar).length = rest.length := by
            intro he
            have := List.takeWhile_append_dropWhile isWordChar rest
            have hlen := congrArg List.length this
            rw [List.length_append, he] at hlen
            have : (rest.dropWhile isWordChar).length = 0 := by omega
            exact hdw (List.length_eq_zero.mp this)
          have h1 : (rest ++ u).takeWhile isWordChar = rest.takeWhile isWordChar := by
            rw [List.takeWhile_append, if_neg htwl]
          have h2 : (rest ++ u).dropWhile isWordChar = rest.dropWhile isWordChar ++ u := by
            rw [List.dropWhile_append, if_neg (by simp [hdw])]
          rw [h1, h2]
          have hrec : findTokens (rest.dropWhile isWordChar ++ u) =
              findTokens (rest.dropWhile isWordChar) := by
            refine ih (rest.dropWhile isWordChar).length ?_ _ rfl
            have := (List.dropWhile_sublist (l := rest) isWordChar).length_le
            simp only [List.length_cons] at hn
            omega
          rw [hrec]
      · rw [List.cons_append, findTokens_cons, if_neg hc, findTokens_cons, if_neg hc]
        refine ih rest.length ?_ _ rfl
        simp only [List.length_cons] at hn
        omega

theorem findTokens_mem (l : List Char) (t : List Char) (ht : t ∈ findTokens l) :
    2 ≤ t.length ∧ ∀ c ∈ t, isWordChar c = true ∧ c ∈ l := by
  generalize hn : l.length = n
  induction n using Nat.strong_induction_on generalizing l t with
  | _ n ih =>
    match l with
    | [] => simp [findTokens_nil] at ht
    | c :: rest =>
      rw [findTokens_cons] at ht
      by_cases hc : isWordChar c = true
      · rw [if_pos hc] at ht
        have hdrop : (rest.dropWhile isWordChar).length < n := by
          have := (List.dropWhile_sublist (l := rest) isWordChar).length_le
          simp only [List.length_cons] at hn
          omega
        by_cases h2 : 2 ≤ (c :: rest.takeWhile isWordChar).length
        · rw [if_pos h2] at ht
          rcases List.mem_cons.mp ht with rfl | ht'
          · refine ⟨h2, ?_⟩
            intro d hd
            rcases List.mem_cons.mp hd with rfl | hd'
            · exact ⟨hc, by simp⟩
            · exact ⟨List.mem_takeWhile_imp hd',
                by simp [(List.takeWhile_sublist isWordChar).subset hd']⟩
          · obtain ⟨hlen, hall⟩ := ih _ hdrop _ _ ht' rfl
            refine ⟨hlen, fun d hd => ?_⟩
            obtain ⟨hw, hmem⟩ := hall d hd
            exact ⟨hw, by simp [(List.dropWhile_sublist isWordChar).subset hmem]⟩
        · rw [if_neg h2] at ht
          obtain ⟨hlen, hall⟩ := ih _ hdrop _ _ ht rfl
          refine ⟨hlen, fun d hd => ?_⟩
          obtain ⟨hw, hmem⟩ := hall d hd
          exact ⟨hw, by simp [(List.dropWhile_sublist isWordChar).subset hmem]⟩
      · rw [if_neg hc] at ht
        have hlt : rest.length < n := by
          simp only [List.length_cons] at hn
          omega
        obtain ⟨hlen, hall⟩ := ih _ hlt _ _ ht rfl
        exact ⟨hlen, fun d hd => ⟨(hall d hd).1, by simp [(hall d hd).2]⟩⟩

/-! ## Deduplication lemmas -/

theorem firstOccDedup_filter (p : String → Bool) (l : List String) :
    firstOccDedup (l.filter p) = (firstOccDedup l).filter p := by
  induction l with
  | nil => rfl
  | cons w ws ih =>
    by_cases hw : p w = true
    · rw [List.filter_cons_of_pos hw, firstOccDedup, firstOccDedup,
        List.filter_cons_of_pos hw, ih, List.filter_filter, List.filter_filter]
      congr 1
      apply List.filter_congr
      intro x _
      rw [Bool.and_comm]
    · rw [List.filter_cons_of_neg (by simp [hw]), firstOccDedup,
        List.filter_cons_of_neg (by simp [hw]), ih, List.filter_filter]
      apply List.filter_congr
      intro x _
      by_cases hx : p x = true
      · have : (x != w) = true := by
          rw [bne_iff_ne]
          rintro rfl
          rw [hx] at hw
          exact hw rfl
        simp [hx, this]
      · simp [Bool.not_eq_true _ |>.mp hx]

theorem dedupSeen_eq (ws seen : List String) :
    dedupSeen ws seen = firstOccDedup (ws.filter (fun w => decide (w ∉ seen))) := by
  induction ws generalizing seen with
  | nil => rfl
  | cons w ws ih =>
    by_cases hw : w ∈ seen
    · rw [dedupSeen, if_pos hw, List.filter_cons_of_neg (by simp [hw]), ih]
    · rw [dedupSeen, if_neg hw, List.filter_cons_of_pos (by simp [hw]), firstOccDedup,
        ih (w :: seen), ← firstOccDedup_filter]
      congr 2
      rw [List.filter_filter]
      apply List.filter_congr
      intro x _
      simp only [List.mem_cons, decide_not]
      by_cases h1 : x = w
      · simp [h1]
      · by_cases h2 : x ∈ seen <;> simp [h1, h2]

theorem norm_words_eq_firstOcc (s : String) :
    _norm_words s =
      firstOccDedup ((findTokens ((pyLower s).data)).map (fun cs => String.mk cs)) := by
  rw [_norm_words, dedupSeen_eq]
  congr 1
  apply List.filter_eq_self.mpr
  intro a _
  simp

theorem firstOccDedup_nodup (l : List String) : (firstOccDedup l).Nodup := by
  induction l with
  | nil => exact List.nodup_nil
  | cons w ws ih =>
    rw [firstOccDedup]
    refine List.nodup_cons.mpr ⟨?_, ih.filter _⟩
    intro hmem
    have := List.of_mem_filter hmem
    simp at this

theorem firstOccDedup_subset (l : List String) (t : String) (ht : t ∈ firstOccDedup l) :
    t ∈ l := by
  induction l with
  | nil => simp [firstOccDedup] at ht
  | cons w ws ih =>
    rw [firstOccDedup] at ht
    rcases List.mem_cons.mp ht with rfl | ht'
    · simp
    · exact List.mem_cons.mpr (Or.inr (ih (List.mem_of_mem_filter ht')))

/-! ## `_norm_words` facts -/

theorem map_toLower_spaces (u : List Char) (hu : ∀ c ∈ u, isPySpace c = true) :
    u.map Char.toLower = u := by
  induction u with
  | nil => rfl
  | cons c u' ih =>
    rw [List.map_cons, sp_toLower c (hu c (by simp)), ih (fun d hd => hu d (by simp [hd]))]

theorem norm_words_strip (q : String) : _norm_words (pyStrip q) = _norm_words q := by
  obtain ⟨u, v, hsplit, hu, hv⟩ := pyStripL_split q.data
  have key : findTokens ((pyStripL q.data).map Char.toLower) =
      findTokens (q.data.map Char.toLower) := by
    conv_rhs => rw [hsplit]
    rw [List.map_append, List.map_append, map_toLower_spaces u hu, map_toLower_spaces v hv,
      List.append_assoc,
      findTokens_front u _ (fun c hc => sp_not_word c (hu c hc)),
      findTokens_back _ v (fun c hc => sp_not_word c (hv c hc))]
  rw [_norm_words, _norm_words]
  have h1 : (pyLower (pyStrip q)).data = (pyStripL q.data).map Char.toLower := rfl
  have h2 : (pyLower q).data = q.data.map Char.toLower := rfl
  rw [h1, h2, key]

theorem norm_words_tokens (s : String) (t : String) (ht : t ∈ _norm_words s) :
    2 ≤ t.length ∧
      ∀ c ∈ t.data, decide ('a' ≤ c ∧ c ≤ 'z') = true ∨
        decide ('0' ≤ c ∧ c ≤ '9') = true ∨ c = aposChar := by
  rw [norm_words_eq_firstOcc] at ht
  have ht2 := firstOccDedup_subset _ _ ht
  obtain ⟨cs, hcs, rfl⟩ := List.mem_map.mp ht2
  obtain ⟨hlen, hall⟩ := findTokens_mem _ _ hcs
  refine ⟨hlen, ?_⟩
  intro c hc
  obtain ⟨hword, hmem⟩ := hall c hc
  obtain ⟨c0, -, rfl⟩ := List.mem_map.mp hmem
  have hup := toLower_not_upper c0
  rw [isWordChar, Bool.or_eq_true, Bool.or_eq_true, Bool.or_eq_true] at hword
  rcases hword with ((h1 | h2) | h3) | h4
  · exact Or.inl h1
  · rw [hup] at h2
    exact absurd h2 (by simp)
  · exact Or.inr (Or.inl h3)
  · exact Or.inr (Or.inr (by simpa using h4))

/-! ## Retrieval lemmas -/

theorem overlapCount_nil (ep : Episode) : overlapCount [] ep = 0 := by
  rw [overlapCount]
  rw [List.filter_eq_nil_iff.mpr]
  · rfl
  · intro w _
    simp

theorem source_eq_specScore (now : ℤ) (qwords : List String) (ep : Episode) :
    (overlapCount qwords ep : ℚ) * 2 + ep.importance * (3/2) + recencyOf now ep.ts * 1 =
      specScore now qwords ep := by
  rw [specScore, recencyOf, clamp]
  simp only [Option.getD_some]
  ring

theorem mem_scoredPairs {cands : List Episode} {now : ℤ} {qwords : List String}
    {p : ℚ × Episode} (h : p ∈ scoredPairs cands now qwords) :
    p.2 ∈ cands ∧ 1 ≤ overlapCount qwords p.2 ∧ p.1 = specScore now qwords p.2 := by
  rw [scoredPairs] at h
  obtain ⟨a, ha, hfa⟩ := List.mem_filterMap.mp h
  by_cases hov : overlapCount qwords a = 0
  · simp [hov] at hfa
  · rw [if_neg hov] at hfa
    obtain rfl := Option.some.inj hfa
    refine ⟨ha, ?_, ?_⟩
    · show 1 ≤ overlapCount qwords a
      omega
    · show (overlapCount qwords a : ℚ) * 2 + a.importance * (3/2) + recencyOf now a.ts * 1 =
        specScore now qwords a
      exact source_eq_specScore now qwords a

theorem scoredPairs_eq (cands : List Episode) (now : ℤ) (qwords : List String) :
    scoredPairs cands now qwords =
      (cands.filter (fun c => decide (¬ overlapCount qwords c = 0))).map
        (fun c => (specScore now qwords c, c)) := by
  induction cands with
  | nil => rfl
  | cons a t ih =>
    rw [scoredPairs, List.filterMap_cons]
    by_cases hov : overlapCount qwords a = 0
    · rw [if_pos hov, List.filter_cons_of_neg (by simp [hov]), ← scoredPairs, ih]
    · rw [if_neg hov, List.filter_cons_of_pos (by simp [hov]), List.map_cons, ← scoredPairs,
        ih, source_eq_specScore]

theorem retrieveCore_mem {cands : List Episode} {now : ℤ} {query : String} {lim : ℕ}
    {ep : Episode} (h : ep ∈ retrieveCore cands now query lim) :
    ep ∈ cands ∧ 1 ≤ overlapCount (_norm_words (pyStrip query)) ep := by
  rw [retrieveCore] at h
  by_cases h1 : pyStrip query = ""
  · rw [if_pos h1] at h
    simp at h
  · rw [if_neg h1] at h
    by_cases h2 : _norm_words (pyStrip query) = []
    · rw [if_pos h2] at h
      simp at h
    · rw [if_neg h2] at h
      obtain ⟨p, hp, rfl⟩ := List.mem_map.mp h
      have hp2 : p ∈ sortDesc Prod.fst (scoredPairs cands now (_norm_words (pyStrip query))) :=
        (List.take_sublist _ _).subset hp
      rw [mem_sortDesc] at hp2
      obtain ⟨hc, hov, -⟩ := mem_scoredPairs hp2
      exact ⟨hc, hov⟩

/-- C1: lexical retrieval (`retrieve_relevant`) never returns an episode
whose normalised token set has zero overlap with the query's normalised
token set — every returned episode shares at least one token with the
query. -/
theorem C1_lexical_overlap (s : MemState) (uid query : String) (lim : ℕ) (now : ℤ)
    (ep : Episode) (h : ep ∈ retrieve_relevant s uid query lim now) :
    ∃ w, w ∈ _norm_words query ∧ w ∈ _norm_words (pyLower (ep.text ++ " " ++ ep.tags)) := by
  obtain ⟨-, hov⟩ := retrieveCore_mem (h := h)
  rw [overlapCount] at hov
  have hne : (epWords ep).filter (fun w => decide (w ∈ _norm_words (pyStrip query))) ≠ [] := by
    intro he
    rw [he] at hov
    simp at hov
  obtain ⟨w, hw⟩ := List.exists_mem_of_ne_nil _ hne
  refine ⟨w, ?_, ?_⟩
  · have := List.of_mem_filter hw
    rw [← norm_words_strip query]
    simpa using this
  · exact List.mem_of_mem_filter hw

/-- C1 witness state: one user with a single stored episode. -/
def epRow0 : EpisodeRow := ⟨1, "7", 50, "hello world", "", 1/2, 0, 0, none⟩

/-- C1 witness state. -/
def state0 : MemState := ⟨[], [epRow0], [], fun _ => 0, 2, 0⟩

/-- Witness for C1 at a concrete retrieval. -/
theorem C1_witness :
    ∃ w, w ∈ _norm_words "hello" ∧
      w ∈ _norm_words (pyLower (epRow0.toEp.text ++ " " ++ epRow0.toEp.tags)) :=
  C1_lexical_overlap state0 "7" "hello" 6 100 epRow0.toEp (by decide)

theorem retrieveCore_eq (cands : List Episode) (now : ℤ) (query : String) (lim : ℕ) :
    (retrieveCore cands now query lim = [] ∧ _norm_words (pyStrip query) = []) ∨
    retrieveCore cands now query lim =
      ((sortDesc Prod.fst (scoredPairs cands now (_norm_words (pyStrip query)))).take lim).map
        Prod.snd := by
  rw [retrieveCore]
  by_cases h1 : pyStrip query = ""
  · left
    rw [if_pos h1, h1]
    exact ⟨rfl, rfl⟩
  · rw [if_neg h1]
    by_cases h2 : _norm_words (pyStrip query) = []
    · left
      rw [if_pos h2]
      exact ⟨rfl, h2⟩
    · right
      rw [if_neg h2]

/-- C5: every scored lexical candidate with at least one token of overlap
receives the score `2×overlap + 1.5×importance + 1.0×recency` with
`recency = clamp(1 − age_days/30, 0, 1)` and `age_days` floored at 0; the
returned list is the top `limit` candidates by this score in descending
order, drawn from the scanned candidates with positive overlap, with ties
broken by the insertion order of the candidate scan (a stable sort):
excluded positive-overlap candidates never out-score a returned one, and
the returned episodes of any fixed score form a sublist of the scan
restricted to that score. -/
theorem C5_lexical_scoring (s : MemState) (uid query : String) (lim : ℕ) (now : ℤ) :
    (∀ p ∈ scoredPairs (fetchCandidates s uid 160) now (_norm_words (pyStrip query)),
      p.1 = specScore now (_norm_words query) p.2) ∧
    (retrieve_relevant s uid query lim now).Pairwise
      (fun a b => specScore now (_norm_words query) b ≤ specScore now (_norm_words query) a) ∧
    (∀ ep ∈ retrieve_relevant s uid query lim now,
      ep ∈ fetchCandidates s uid 160 ∧ 1 ≤ overlapCount (_norm_words query) ep) ∧
    (∀ c ∈ fetchCandidates s uid 160, 1 ≤ overlapCount (_norm_words query) c →
      c ∉ retrieve_relevant s uid query lim now →
      (retrieve_relevant s uid query lim now).length = lim ∧
        ∀ e ∈ retrieve_relevant s uid query lim now,
          specScore now (_norm_words query) c ≤ specScore now (_norm_words query) e) ∧
    (∀ k : ℚ, ((retrieve_relevant s uid query lim now).filter
        (fun e => decide (specScore now (_norm_words query) e = k))).Sublist
      (((fetchCandidates s uid 160).filter
          (fun c => decide (1 ≤ overlapCount (_norm_words query) c))).filter
        (fun e => decide (specScore now (_norm_words query) e = k)))) := by
  rw [← norm_words_strip query]
  set qs := _norm_words (pyStrip query) with hqs
  set cands := fetchCandidates s uid 160 with hcands
  set sp := scoredPairs cands now qs with hsp
  set L := sortDesc Prod.fst sp with hL
  have hscoreL : ∀ p ∈ L, p.1 = specScore now qs p.2 := by
    intro p hp
    exact (mem_scoredPairs ((mem_sortDesc _ _ _).mp hp)).2.2
  refine ⟨fun p hp => (mem_scoredPairs hp).2.2, ?_, ?_, ?_, ?_⟩
  · -- descending order
    rcases retrieveCore_eq cands now query lim with ⟨hout, -⟩ | hout
    · rw [retrieve_relevant, ← hcands, hout]
      exact List.Pairwise.nil
    · rw [← hqs, ← hsp, ← hL] at hout
      rw [retrieve_relevant, ← hcands, hout]
      rw [List.pairwise_map]
      refine List.Pairwise.imp_of_mem ?_
        ((pairwise_sortDesc Prod.fst sp).sublist (List.take_sublist lim L))
      intro a b ha hb hab
      rw [← hscoreL a ((List.take_sublist lim L).subset ha),
        ← hscoreL b ((List.take_sublist lim L).subset hb)]
      exact hab
  · -- membership and positive overlap
    intro ep hep
    exact retrieveCore_mem hep
  · -- top-`limit` property
    intro c hc hov hnot
    rcases retrieveCore_eq cands now query lim with ⟨hout, hqnil⟩ | hout
    · rw [← hqs] at hqnil
      rw [hqnil, overlapCount_nil] at hov
      omega
    · rw [← hqs, ← hsp, ← hL] at hout
      have hpair : (specScore now qs c, c) ∈ sp := by
        rw [hsp, scoredPairs_eq]
        refine List.mem_map.mpr ⟨c, List.mem_filter.mpr ⟨hc, ?_⟩, rfl⟩
        rw [decide_eq_true_eq]
        omega
      have hmemL : (specScore now qs c, c) ∈ L := (mem_sortDesc _ _ _).mpr hpair
      have hnotTake : (specScore now qs c, c) ∉ L.take lim := by
        intro hmem
        refine hnot ?_
        rw [retrieve_relevant, ← hcands, hout]
        exact List.mem_map.mpr ⟨_, hmem, rfl⟩
      have hdropmem : (specScore now qs c, c) ∈ L.drop lim := by
        have hsplit := List.take_append_drop lim L
        have : (specScore now qs c, c) ∈ L.take lim ++ L.drop lim := by
          rw [hsplit]
          exact hmemL
        rcases List.mem_append.mp this with h | h
        · exact absurd h hnotTake
        · exact h
      have hlenL : lim < L.length := by
        by_contra hcon
        push_neg at hcon
        rw [List.drop_eq_nil_iff.mpr hcon] at hdropmem
        simp at hdropmem
      constructor
      · rw [retrieve_relevant, ← hcands, hout, List.length_map, List.length_take]
        omega
      · intro e he
        rw [retrieve_relevant, ← hcands, hout] at he
        obtain ⟨a, ha, rfl⟩ := List.mem_map.mp he
        have hPW := pairwise_sortDesc Prod.fst sp
        rw [← hL, ← List.take_append_drop lim L, List.pairwise_append] at hPW
        have hord := hPW.2.2 a ha _ hdropmem
        rw [← hscoreL a ((List.take_sublist lim L).subset ha)]
        exact hord
  · -- stability on score fibres
    intro k
    rcases retrieveCore_eq cands now query lim with ⟨hout, -⟩ | hout
    · rw [retrieve_relevant, ← hcands, hout]
      exact List.nil_sublist _
    · rw [← hqs, ← hsp, ← hL] at hout
      rw [retrieve_relevant, ← hcands, hout, List.filter_map]
      have hchain :
          (L.filter ((fun e => decide (specScore now qs e = k)) ∘ Prod.snd)).map Prod.snd =
            ((cands.filter (fun c => decide (1 ≤ overlapCount qs c))).filter
              (fun e => decide (specScore now qs e = k))) := by
        have e1 : L.filter ((fun e => decide (specScore now qs e = k)) ∘ Prod.snd) =
            L.filter (fun p => decide (p.1 = k)) := by
          apply List.filter_congr
          intro p hp
          rw [Function.comp_apply, decide_eq_decide, hscoreL p hp]
        have e2 : L.filter (fun p => decide (p.1 = k)) = sp.filter (fun p => decide (p.1 = k)) :=
          filter_key_sortDesc Prod.fst sp k
        have e3 : sp.filter (fun p => decide (p.1 = k)) =
            sp.filter ((fun e => decide (specScore now qs e = k)) ∘ Prod.snd) := by
          apply List.filter_congr
          intro p hp
          rw [Function.comp_apply, decide_eq_decide,
            (mem_scoredPairs hp).2.2]
        rw [e1, e2, e3, hsp, scoredPairs_eq, List.filter_map, List.map_map]
        have e4 : (Prod.snd ∘ fun c : Episode => (specScore now qs c, c)) = id := by
          funext c
          rfl
        have e5 : (((fun e => decide (specScore now qs e = k)) ∘ Prod.snd) ∘
            fun c : Episode => (specScore now qs c, c)) =
            fun c : Episode => decide (specScore now qs c = k) := by
          funext c
          rfl
        rw [e4, List.map_id, e5, List.filter_filter, List.filter_filter]
        apply List.filter_congr
        intro c _
        congr 1
        rw [decide_eq_decide]
        omega
      exact hchain ▸
        List.Sublist.map Prod.snd (List.Sublist.filter _ (List.take_sublist lim L))

/-- Witness for C5: at limit 0 nothing is returned, so the top-limit
property applies to the stored episode. -/
theorem C5_witness :
    (retrieve_relevant state0 "7" "hello" 0 100).length = 0 ∧
      ∀ e ∈ retrieve_relevant state0 "7" "hello" 0 100,
        specScore 100 (_norm_words "hello") epRow0.toEp ≤
          specScore 100 (_norm_words "hello") e :=
  (C5_lexical_scoring state0 "7" "hello" 0 100).2.2.2.1 epRow0.toEp (by decide) (by decide)
    (by decide)

/-- C7 (amended; the claim as frozen is refuted by `C7_counterexample`
below): every token produced by `_norm_words` has length at least 2 and
consists only of lower-case letters, digits, **or apostrophes** (the regex
class is `[a-zA-Z0-9']`), and the output is the deduplication of the raw
token list keeping first occurrences, so each token appears exactly once in
first-occurrence order. -/
theorem C7_norm_words_shape (s : String) :
    (∀ t ∈ _norm_words s, 2 ≤ t.length ∧
      ∀ c ∈ t.data, decide ('a' ≤ c ∧ c ≤ 'z') = true ∨
        decide ('0' ≤ c ∧ c ≤ '9') = true ∨ c = aposChar) ∧
    (_norm_words s).Nodup ∧
    _norm_words s =
      firstOccDedup ((findTokens ((pyLower s).data)).map (fun cs => String.mk cs)) :=
  ⟨fun t ht => norm_words_tokens s t ht,
   by rw [norm_words_eq_firstOcc]; exact firstOccDedup_nodup _,
   norm_words_eq_firstOcc s⟩

/-- Witness for C7 at a concrete token. -/
theorem C7_witness :
    2 ≤ "ab".length ∧
      ∀ c ∈ "ab".data, decide ('a' ≤ c ∧ c ≤ 'z') = true ∨
        decide ('0' ≤ c ∧ c ≤ '9') = true ∨ c = aposChar :=
  (C7_norm_words_shape "ab").1 "ab" (by decide)

/-- C7 counterexample: the claim as stated says every token consists only
of lowercase letters and digits; the input `don't` yields the token `don't`,
which contains an apostrophe (the regex class is `[a-zA-Z0-9']`). -/
theorem C7_counterexample :
    ¬ ∀ t ∈ _norm_words (String.mk ['d', 'o', 'n', aposChar, 't']),
        ∀ c ∈ t.data, ('a' ≤ c ∧ c ≤ 'z') ∨ ('0' ≤ c ∧ c ≤ '9') := by
  decide

/-! ## C2: transparent vector fallback -/

theorem retrieveCore_strip (cands : List Episode) (now : ℤ) (query : String) (lim : ℕ) :
    retrieveCore cands now (pyStrip query) lim = retrieveCore cands now query lim := by
  rw [retrieveCore, retrieveCore, pyStrip_idem]

theorem retrieve_relevant_strip (s : MemState) (uid query : String) (lim : ℕ) (now : ℤ) :
    retrieve_relevant s uid (pyStrip query) lim now = retrieve_relevant s uid query lim now := by
  rw [retrieve_relevant, retrieve_relevant, retrieveCore_strip]

theorem retrieve_relevant_empty (s : MemState) (uid query : String) (lim : ℕ) (now : ℤ)
    (h : pyStrip query = "") : retrieve_relevant s uid query lim now = [] := by
  rw [retrieve_relevant, retrieveCore, if_pos h]

/-- C2: when vector ranking is requested but the vector module is
unavailable, or query embedding fails, or no stored episode of the user
carries an embedding, `retrieve_relevant_vector` returns exactly
`retrieve_relevant` on the same user, query and limit (same return type,
same episodes, no error — the model is a total function). -/
theorem C2_vector_fallback (env : Env) (s : MemState) (uid query : String) (lim : ℕ)
    (thr rcw : ℚ) (now : ℤ)
    (h : env.mv = none ∨
      (∃ m, env.mv = some m ∧ m.embed_text (pyStrip query) = none) ∨
      (∀ r ∈ s.episodes, r.user_id = uid → r.embedding = none)) :
    retrieve_relevant_vector env s uid query lim thr rcw now =
      retrieve_relevant s uid query lim now := by
  rw [retrieve_relevant_vector]
  by_cases hq : pyStrip query = ""
  · rw [if_pos hq, retrieve_relevant_empty s uid query lim now hq]
  · rw [if_neg hq]
    have hpool : (∀ r ∈ s.episodes, r.user_id = uid → r.embedding = none) →
        vectorPool s uid = [] := by
      intro hemb
      rw [vectorPool]
      have : s.episodes.filter (fun r => r.user_id == uid && !r.embedding.isNone) = [] := by
        rw [List.filter_eq_nil_iff]
        intro r hr
        rw [Bool.and_eq_true, beq_iff_eq]
        rintro ⟨h1, h2⟩
        rw [hemb r hr h1] at h2
        simp at h2
      rw [this]
      rfl
    rcases h with hmv | ⟨m, hmv, hemb⟩ | hemb
    · rw [hmv]
      exact retrieve_relevant_strip s uid query lim now
    · rw [hmv]
      simp only
      rw [hemb]
      exact retrieve_relevant_strip s uid query lim now
    · match hmv : env.mv with
      | none => exact retrieve_relevant_strip s uid query lim now
      | some m =>
        simp only
        match hqe : m.embed_text (pyStrip query) with
        | none => exact retrieve_relevant_strip s uid query lim now
        | some qe =>
          simp only
          by_cases hnil : qe = []
          · rw [if_pos hnil]
            exact retrieve_relevant_strip s uid query lim now
          · rw [if_neg hnil, hpool hemb, if_pos rfl]
            exact retrieve_relevant_strip s uid query lim now

/-- An environment without the vector module. -/
def envNone : Env := ⟨none⟩

/-- Witness for C2 with the vector module unavailable. -/
theorem C2_witness :
    retrieve_relevant_vector envNone state0 "7" "hello" 6 (mkRat 3 10) (mkRat 3 10) 100 =
      retrieve_relevant state0 "7" "hello" 6 100 :=
  C2_vector_fallback envNone state0 "7" "hello" 6 (mkRat 3 10) (mkRat 3 10) 100 (Or.inl rfl)

/-! ## C4: fail-closed extraction -/

theorem extract_unchanged (env : Env) (s : MemState) (uid : String)
    (llm : List (String × String) → Option JValue) (window : ℕ) (now : ℤ)
    (h : llm (get_recent_messages s uid window) = none ∨
      ∃ d, llm (get_recent_messages s uid window) = some d ∧ d.isObj = false) :
    extract_and_store env s uid llm window now = s := by
  rw [extract_and_store]
  by_cases hm : get_recent_messages s uid window = []
  · rw [if_pos hm]
  · rw [if_neg hm]
    rcases h with hnone | ⟨d, hd, hobj⟩
    · rw [hnone]
    · rw [hd]
      simp only [hobj]
      rfl

/-- C4: an LLM response that fails top-level JSON parsing, or parses to a
non-object, aborts the whole extraction with no writes: the state — facts,
episodes, message log and counters, for every user — is returned
unchanged, and no error propagates (the model is a total function). -/
theorem C4_parse_failure_no_writes (env : Env) (s : MemState) (uid : String)
    (llm : List (String × String) → Option JValue) (window : ℕ) (now : ℤ)
    (h : llm (get_recent_messages s uid window) = none ∨
      ∃ d, llm (get_recent_messages s uid window) = some d ∧ d.isObj = false) :
    extract_and_store env s uid llm window now = s :=
  extract_unchanged env s uid llm window now h

/-- An oracle whose output never parses as JSON. -/
def llmBad : List (String × String) → Option JValue := fun _ => none

/-- A state with one logged message and the extraction counter at the
threshold. -/
def stateMsg : MemState := ⟨[], [], [⟨0, "7", 5, "user", "hi"⟩], fun _ => 8, 0, 1⟩

/-- Witness for C4 at a concrete parse failure. -/
theorem C4_witness : extract_and_store envNone stateMsg "7" llmBad 12 100 = stateMsg :=
  C4_parse_failure_no_writes envNone stateMsg "7" llmBad 12 100 (Or.inl rfl)

/-! ## C6: candidate windows -/

/-- C6 (amended; the frozen claim's single 160-episode window for both
paths is refuted by `C6_counterexample`): the lexical path draws returned
episodes only from the 160 most recent episodes of the user; the vector
path draws them either from that lexical window (fallback) or from the
window of the 500 most recent episodes of the user that carry an
embedding. -/
theorem C6_candidate_windows (env : Env) (s : MemState) (uid query : String) (lim : ℕ)
    (thr rcw : ℚ) (now : ℤ) :
    (∀ ep ∈ retrieve_relevant s uid query lim now, ep ∈ fetchCandidates s uid 160) ∧
    (∀ ep ∈ retrieve_relevant_vector env s uid query lim thr rcw now,
      ep ∈ fetchCandidates s uid 160 ∨ ∃ r ∈ vectorPool s uid, r.toEp = ep) := by
  constructor
  · intro ep hep
    exact (retrieveCore_mem hep).1
  · intro ep hep
    rw [retrieve_relevant_vector] at hep
    by_cases hq : pyStrip query = ""
    · rw [if_pos hq] at hep
      simp at hep
    · rw [if_neg hq] at hep
      have hfall : ∀ {l : List Episode},
          l = retrieve_relevant s uid (pyStrip query) lim now → ep ∈ l →
          ep ∈ fetchCandidates s uid 160 ∨ ∃ r ∈ vectorPool s uid, r.toEp = ep := by
        intro l hl hmem
        rw [hl, retrieve_relevant_strip] at hmem
        exact Or.inl (retrieveCore_mem hmem).1
      match hmv : env.mv with
      | none =>
        rw [hmv] at hep
        exact hfall rfl hep
      | some m =>
        rw [hmv] at hep
        simp only at hep
        match hqe : m.embed_text (pyStrip query) with
        | none =>
          rw [hqe] at hep
          exact hfall rfl hep
        | some qe =>
          rw [hqe] at hep
          simp only at hep
          by_cases hnil : qe = []
          · rw [if_pos hnil] at hep
            exact hfall rfl hep
          · rw [if_neg hnil] at hep
            by_cases hrows : vectorPool s uid = []
            · rw [if_pos hrows] at hep
              exact hfall rfl hep
            · rw [if_neg hrows] at hep
              by_cases hsim : find_similar m.cos qe
                  ((vectorPool s uid).filterMap (fun r =>
                    match r.embedding with
                    | some e => if e = [] then none else some (r.id, e)
                    | none => none)) (lim * 2) thr = []
              · rw [if_pos hsim] at hep
                exact hfall rfl hep
              · rw [if_neg hsim] at hep
                right
                obtain ⟨p, hpmem, rfl⟩ := List.mem_map.mp hep
                have hp2 := (mem_sortDesc _ _ _).mp ((List.take_sublist _ _).subset hpmem)
                obtain ⟨q, hq2, hfq⟩ := List.mem_filterMap.mp hp2
                match hfind : (vectorPool s uid).find? (fun r => r.id == q.1) with
                | none =>
                  rw [hfind] at hfq
                  simp at hfq
                | some row =>
                  rw [hfind] at hfq
                  have hrow := List.mem_of_find?_eq_some hfind
                  refine ⟨row, hrow, ?_⟩
                  obtain rfl := Option.some.inj hfq
                  rfl

/-- Witness for C6: the stored episode returned lexically lies in the
160-episode window. -/
theorem C6_witness : epRow0.toEp ∈ fetchCandidates state0 "7" 160 :=
  ((C6_candidate_windows envNone state0 "7" "hello" 6 (mkRat 3 10) (mkRat 3 10) 100).1
    epRow0.toEp (by decide))

/-- A user history of 161 episodes, timestamps strictly decreasing with
the index; only the oldest one (id 160) carries an embedding. -/
def ceEp (i : ℕ) : EpisodeRow :=
  ⟨i, "u", (1000000 : ℤ) - i, "e", "", mkRat 1 2, 0, 0,
    if i = 160 then some [1] else none⟩

/-- The 161-episode counterexample state. -/
def ceState : MemState := ⟨[], (List.range 161).map ceEp, [], fun _ => 0, 161, 0⟩

/-- Exact cosine similarity for one-dimensional vectors (the embedding
service is free to return one-dimensional vectors; on them the float
cosine of `memory_vector.cosine_similarity` is exactly `sign x · sign y`). -/
def cos1d (a b : List ℚ) : ℚ :=
  match a, b with
  | [x], [y] => if x = 0 ∨ y = 0 then 0 else (x * y) / (|x| * |y|)
  | _, _ => 0

/-- The counterexample environment: the embedding service answers `[1]`
for every query. -/
def ceEnv : Env := ⟨some ⟨fun _ => some [1], cos1d⟩⟩

set_option maxHeartbeats 4000000 in
set_option maxRecDepth 100000 in
/-- C6 counterexample: with 161 stored episodes of which only the oldest
carries an embedding, the vector path returns the oldest episode (id 160)
even though it lies outside the 160 most recent episodes by timestamp —
its SQL window is `LIMIT 500` over embedded rows, not 160. -/
theorem C6_counterexample :
    (retrieve_relevant_vector ceEnv ceState "u" "hi" 6 (mkRat 3 10) (mkRat 3 10)
        1000000).map Episode.id = [160] ∧
      (160 : ℕ) ∉ (fetchCandidates ceState "u" 160).map Episode.id := by
  constructor
  · decide
  · decide

/-! ## C3: per-item extraction validation -/

theorem factItem_eq_spec (f : JValue) : factItem? f = specFactValid f := by
  match f with
  | .null => rfl
  | .bool b => rfl
  | .num q => rfl
  | .str s => rfl
  | .arr xs => rfl
  | .obj kvs =>
    show (if pyStrip (pyStr (JValue.getD (.obj kvs) "key" (.str ""))) = "" ∨
        pyStrip (pyStr (JValue.getD (.obj kvs) "value" (.str ""))) = "" then none
      else if 48 < (pyStrip (pyStr (JValue.getD (.obj kvs) "key" (.str "")))).length ∨
        240 < (pyStrip (pyStr (JValue.getD (.obj kvs) "value" (.str "")))).length then none
      else some (pyStrip (pyStr (JValue.getD (.obj kvs) "key" (.str ""))),
        pyStrip (pyStr (JValue.getD (.obj kvs) "value" (.str ""))),
        (pyFloat? (JValue.getD (.obj kvs) "confidence" (.num (7/10)))).getD (7/10))) = _
    set key := pyStrip (pyStr (JValue.getD (JValue.obj kvs) "key" (.str ""))) with hk
    set val := pyStrip (pyStr (JValue.getD (JValue.obj kvs) "value" (.str ""))) with hv
    show _ = (if key ≠ "" ∧ key.length ≤ 48 ∧ val ≠ "" ∧ val.length ≤ 240 then _ else none)
    by_cases h1 : key = "" ∨ val = ""
    · rw [if_pos h1, if_neg]
      tauto
    · rw [if_neg h1]
      by_cases h2 : 48 < key.length ∨ 240 < val.length
      · rw [if_pos h2, if_neg]
        rintro ⟨-, hb, -, hd⟩
        rcases h2 with h2 | h2 <;> omega
      · rw [if_neg h2, if_pos]
        push_neg at h1 h2
        exact ⟨h1.1, h2.1, h1.2, h2.2⟩

theorem epItem_eq_spec (e : JValue) : epItem? e = specEpValid e := by
  match e with
  | .null => rfl
  | .bool b => rfl
  | .num q => rfl
  | .str s => rfl
  | .arr xs => rfl
  | .obj kvs =>
    show (if pyStrip (pyStr (JValue.getD (.obj kvs) "text" (.str ""))) = "" ∨
        280 < (pyStrip (pyStr (JValue.getD (.obj kvs) "text" (.str "")))).length then none
      else some (pyStrip (pyStr (JValue.getD (.obj kvs) "text" (.str ""))),
        tagStrs (JValue.getD (.obj kvs) "tags" (.arr [])),
        (pyFloat? (JValue.getD (.obj kvs) "importance" (.num (1/2)))).getD (1/2))) = _
    set text := pyStrip (pyStr (JValue.getD (JValue.obj kvs) "text" (.str ""))) with ht
    show _ = (if text ≠ "" ∧ text.length ≤ 280 then _ else none)
    by_cases h1 : text = "" ∨ 280 < text.length
    · rw [if_pos h1, if_neg]
      rintro ⟨ha, hb⟩
      rcases h1 with h1 | h1
      · exact ha h1
      · omega
    · rw [if_neg h1, if_pos]
      push_neg at h1
      exact ⟨h1.1, by omega⟩

theorem factWrites_eq_spec (fs : List JValue) :
    factWrites fs = fs.filterMap specFactValid := by
  rw [factWrites, show factItem? = specFactValid from funext factItem_eq_spec]

theorem epWrites_eq_spec (es : List JValue) :
    epWrites es = es.filterMap specEpValid := by
  rw [epWrites, show epItem? = specEpValid from funext epItem_eq_spec]

theorem add_episode_facts (env : Env) (st : MemState) (uid text : String)
    (tags : List String) (imp : Option ℚ) (ts : Option ℤ) (em : Bool) (now : ℤ) :
    (add_episode env st uid text tags imp ts em now).facts = st.facts := by
  rw [add_episode.eq_def]
  split <;> (dsimp only; split <;> rfl)

theorem foldl_add_episode_facts (env : Env) (uid : String) (now : ℤ)
    (ws : List (String × List String × ℚ)) (st : MemState) :
    (ws.foldl (fun st w => add_episode env st uid w.1 w.2.1 (some w.2.2) none true now)
      st).facts = st.facts := by
  induction ws generalizing st with
  | nil => rfl
  | cons w ws ih => rw [List.foldl_cons, ih, add_episode_facts]

theorem prune_facts (s : MemState) (uid : String) (a b : ℕ) :
    (prune s uid a b).facts = s.facts := rfl

/-- C3: once a response parses as a JSON object, validation is per item —
the loop over the first 10 facts (excess silently dropped) is exactly a
`filterMap` of the per-item rule "key non-empty and ≤ 48 chars, value
non-empty and ≤ 240 chars", the loop over the first 3 episodes likewise
with "text non-empty and ≤ 280 chars", so an invalid item is rejected
without affecting the others; the surviving facts and episodes are all
committed (final state = the folds of exactly those writes, then
pruning). -/
theorem C3_extraction_validation (env : Env) (s : MemState) (uid : String)
    (llm : List (String × String) → Option JValue) (window : ℕ) (now : ℤ) (d : JValue)
    (hmsg : get_recent_messages s uid window ≠ [])
    (hllm : llm (get_recent_messages s uid window) = some d)
    (hobj : d.isObj = true) :
    factWrites ((jItems (d.getD "facts" (.arr []))).take 10) =
      ((jItems (d.getD "facts" (.arr []))).take 10).filterMap specFactValid ∧
    epWrites ((jItems (d.getD "episodes" (.arr []))).take 3) =
      ((jItems (d.getD "episodes" (.arr []))).take 3).filterMap specEpValid ∧
    extract_and_store env s uid llm window now =
      prune
        ((((jItems (d.getD "episodes" (.arr []))).take 3).filterMap specEpValid).foldl
          (fun st w => add_episode env st uid w.1 w.2.1 (some w.2.2) none true now)
          ((((jItems (d.getD "facts" (.arr []))).take 10).filterMap specFactValid).foldl
            (fun st w => upsert_fact st uid w.1 w.2.1 (some w.2.2) now) s))
        uid 600 300 := by
  refine ⟨factWrites_eq_spec _, epWrites_eq_spec _, ?_⟩
  rw [extract_and_store, if_neg hmsg, hllm]
  simp only [hobj]
  rw [factWrites_eq_spec, epWrites_eq_spec]
  rfl

/-- A response with one valid fact, one invalid fact (49-character key),
an over-cap list of episodes, and one valid episode. -/
def dGood : JValue :=
  .obj [("facts", .arr [.obj [("key", .str "name"), ("value", .str "Ada")],
    .obj [("key", .str "kkkkkkkkkkkkkkkkkkkkkkkkkkkkkkkkkkkkkkkkkkkkkkkkk"),
      ("value", .str "x")]]),
    ("episodes", .arr [.obj [("text", .str "likes hiking")]])]

/-- An oracle answering `dGood`. -/
def llmGood : List (String × String) → Option JValue := fun _ => some dGood

/-- Witness for C3 at a concrete extraction. -/
theorem C3_witness :
    factWrites ((jItems (dGood.getD "facts" (.arr []))).take 10) =
      ((jItems (dGood.getD "facts" (.arr []))).take 10).filterMap specFactValid ∧
    epWrites ((jItems (dGood.getD "episodes" (.arr []))).take 3) =
      ((jItems (dGood.getD "episodes" (.arr []))).take 3).filterMap specEpValid ∧
    extract_and_store envNone stateMsg "7" llmGood 12 100 =
      prune
        ((((jItems (dGood.getD "episodes" (.arr []))).take 3).filterMap specEpValid).foldl
          (fun st w => add_episode envNone st "7" w.1 w.2.1 (some w.2.2) none true 100)
          ((((jItems (dGood.getD "facts" (.arr []))).take 10).filterMap specFactValid).foldl
            (fun st w => upsert_fact st "7" w.1 w.2.1 (some w.2.2) 100) stateMsg))
        "7" 600 300 :=
  C3_extraction_validation envNone stateMsg "7" llmGood 12 100 dGood (by decide) rfl rfl

/-! ## C9: clamped ranges on every write -/

theorem clamp_range (v : Option ℚ) : 0 ≤ clamp v 0 1 ∧ clamp v 0 1 ≤ 1 := by
  refine ⟨le_max_left 0 _, ?_⟩
  rw [clamp]
  exact max_le zero_le_one (min_le_left _ _)

theorem upsert_fact_episodes (s : MemState) (uid key value : String) (conf : Option ℚ)
    (now : ℤ) : (upsert_fact s uid key value conf now).episodes = s.episodes := by
  rw [upsert_fact]
  split
  · rfl
  · split <;> rfl

theorem upsert_fact_messages (s : MemState) (uid key value : String) (conf : Option ℚ)
    (now : ℤ) : (upsert_fact s uid key value conf now).messages = s.messages := by
  rw [upsert_fact]
  split
  · rfl
  · split <;> rfl

theorem upsert_fact_next (s : MemState) (uid key value : String) (conf : Option ℚ)
    (now : ℤ) : (upsert_fact s uid key value conf now).next_ep_id = s.next_ep_id := by
  rw [upsert_fact]
  split
  · rfl
  · split <;> rfl

theorem upsert_fact_counter (s : MemState) (uid key value : String) (conf : Option ℚ)
    (now : ℤ) : (upsert_fact s uid key value conf now).msg_counter = s.msg_counter := by
  rw [upsert_fact]
  split
  · rfl
  · split <;> rfl

theorem upsert_fact_range (s : MemState) (uid key value : String) (conf : Option ℚ)
    (now : ℤ) (hf : factsInRange s.facts) :
    factsInRange (upsert_fact s uid key value conf now).facts := by
  rw [upsert_fact]
  split
  · exact hf
  · split
    · intro f hfm
      obtain ⟨g, hg, rfl⟩ := List.mem_map.mp hfm
      by_cases hm : g.user_id == uid && g.key == pyLower (pyStrip key)
      · rw [if_pos hm]
        exact clamp_range conf
      · rw [if_neg hm]
        exact hf g hg
    · intro f hfm
      rcases List.mem_append.mp hfm with hmem | hmem
      · exact hf f hmem
      · have : f = ⟨uid, pyLower (pyStrip key), pyStrip value, clamp conf 0 1, now⟩ := by
          simpa using hmem
        rw [this]
        exact clamp_range conf

theorem add_episode_messages (env : Env) (st : MemState) (uid text : String)
    (tags : List String) (imp : Option ℚ) (ts : Option ℤ) (em : Bool) (now : ℤ) :
    (add_episode env st uid text tags imp ts em now).messages = st.messages := by
  rw [add_episode.eq_def]
  split <;> (dsimp only; split <;> rfl)

theorem add_episode_counter (env : Env) (st : MemState) (uid text : String)
    (tags : List String) (imp : Option ℚ) (ts : Option ℤ) (em : Bool) (now : ℤ) :
    (add_episode env st uid text tags imp ts em now).msg_counter = st.msg_counter := by
  rw [add_episode.eq_def]
  split <;> (dsimp only; split <;> rfl)

/-- The episodes after `add_episode`: unchanged, or extended by one row
whose importance is clamped and whose id is the cursor. -/
theorem add_episode_episodes (env : Env) (st : MemState) (uid text : String)
    (tags : List String) (imp : Option ℚ) (ts : Option ℤ) (em : Bool) (now : ℤ) :
    ((add_episode env st uid text tags imp ts em now).episodes = st.episodes ∧
      (add_episode env st uid text tags imp ts em now).next_ep_id = st.next_ep_id) ∨
    ∃ row : EpisodeRow, row.importance = clamp imp 0 1 ∧ row.id = st.next_ep_id ∧
      (add_episode env st uid text tags imp ts em now).episodes = st.episodes ++ [row] ∧
      (add_episode env st uid text tags imp ts em now).next_ep_id = st.next_ep_id + 1 := by
  rw [add_episode.eq_def]
  split <;> (dsimp only; split)
  · exact Or.inl ⟨rfl, rfl⟩
  · exact Or.inr ⟨_, rfl, rfl, rfl, rfl⟩
  · exact Or.inl ⟨rfl, rfl⟩
  · exact Or.inr ⟨_, rfl, rfl, rfl, rfl⟩

theorem add_episode_range (env : Env) (st : MemState) (uid text : String)
    (tags : List String) (imp : Option ℚ) (ts : Option ℤ) (em : Bool) (now : ℤ)
    (he : episodesInRange st.episodes) :
    episodesInRange (add_episode env st uid text tags imp ts em now).episodes := by
  rcases add_episode_episodes env st uid text tags imp ts em now with ⟨h1, -⟩ |
    ⟨row, hclamp, -, h1, -⟩
  · rw [h1]
    exact he
  · rw [h1]
    intro e hmem
    rcases List.mem_append.mp hmem with hmem | hmem
    · exact he e hmem
    · have : e = row := by simpa using hmem
      rw [this, hclamp]
      exact clamp_range imp

theorem foldl_upsert_range (uid : String) (now : ℤ) (ws : List (String × String × ℚ))
    (st : MemState) (hf : factsInRange st.facts) (he : episodesInRange st.episodes) :
    factsInRange ((ws.foldl (fun st w => upsert_fact st uid w.1 w.2.1 (some w.2.2) now)
        st).facts) ∧
    episodesInRange ((ws.foldl (fun st w => upsert_fact st uid w.1 w.2.1 (some w.2.2) now)
        st).episodes) := by
  induction ws generalizing st with
  | nil => exact ⟨hf, he⟩
  | cons w ws ih =>
    rw [List.foldl_cons]
    refine ih _ (upsert_fact_range _ _ _ _ _ _ hf) ?_
    rw [upsert_fact_episodes]
    exact he

theorem foldl_add_range (env : Env) (uid : String) (now : ℤ)
    (ws : List (String × List String × ℚ)) (st : MemState)
    (hf : factsInRange st.facts) (he : episodesInRange st.episodes) :
    factsInRange ((ws.foldl
        (fun st w => add_episode env st uid w.1 w.2.1 (some w.2.2) none true now) st).facts) ∧
    episodesInRange ((ws.foldl
        (fun st w => add_episode env st uid w.1 w.2.1 (some w.2.2) none true now)
        st).episodes) := by
  induction ws generalizing st with
  | nil => exact ⟨hf, he⟩
  | cons w ws ih =>
    rw [List.foldl_cons]
    refine ih _ ?_ (add_episode_range _ _ _ _ _ _ _ _ _ he)
    rw [add_episode_facts]
    exact hf

theorem prune_range (s : MemState) (uid : String) (a b : ℕ)
    (hf : factsInRange s.facts) (he : episodesInRange s.episodes) :
    factsInRange (prune s uid a b).facts ∧ episodesInRange (prune s uid a b).episodes := by
  refine ⟨hf, ?_⟩
  intro e hmem
  exact he e (List.mem_of_mem_filter hmem)

theorem extract_range (env : Env) (s : MemState) (uid : String)
    (llm : List (String × String) → Option JValue) (window : ℕ) (now : ℤ)
    (hf : factsInRange s.facts) (he : episodesInRange s.episodes) :
    factsInRange (extract_and_store env s uid llm window now).facts ∧
    episodesInRange (extract_and_store env s uid llm window now).episodes := by
  rw [extract_and_store]
  by_cases hm : get_recent_messages s uid window = []
  · rw [if_pos hm]
    exact ⟨hf, he⟩
  · rw [if_neg hm]
    match llm (get_recent_messages s uid window) with
    | none => exact ⟨hf, he⟩
    | some data =>
      by_cases hobj : data.isObj
      · simp only [hobj, Bool.not_true, Bool.false_eq_true, if_false]
        obtain ⟨hf1, he1⟩ := foldl_upsert_range uid now _ s hf he
        obtain ⟨hf2, he2⟩ := foldl_add_range env uid now _ _ hf1 he1
        exact prune_range _ uid 600 300 hf2 he2
      · simp only [Bool.not_eq_true] at hobj
        simp only [hobj]
        exact ⟨hf, he⟩

/-- C9: every write of a fact (`upsert_fact`, directly or via extraction)
and every write of an episode (`add_episode`, directly or via extraction)
stores confidence/importance clamped into [0,1], for every input including
out-of-range, non-coercible (`none`) and extreme values: the range
invariant on both tables is preserved by all three write entry points. -/
theorem C9_clamped_writes (env : Env) (s : MemState) (uid key value text : String)
    (tags : List String) (conf imp : Option ℚ) (ts : Option ℤ) (em : Bool)
    (llm : List (String × String) → Option JValue) (window : ℕ) (now : ℤ)
    (hf : factsInRange s.facts) (he : episodesInRange s.episodes) :
    (factsInRange (upsert_fact s uid key value conf now).facts ∧
      episodesInRange (upsert_fact s uid key value conf now).episodes) ∧
    (factsInRange (add_episode env s uid text tags imp ts em now).facts ∧
      episodesInRange (add_episode env s uid text tags imp ts em now).episodes) ∧
    (factsInRange (extract_and_store env s uid llm window now).facts ∧
      episodesInRange (extract_and_store env s uid llm window now).episodes) := by
  refine ⟨⟨upsert_fact_range s uid key value conf now hf, ?_⟩,
    ⟨?_, add_episode_range env s uid text tags imp ts em now he⟩,
    extract_range env s uid llm window now hf he⟩
  · rw [upsert_fact_episodes]
    exact he
  · rw [add_episode_facts]
    exact hf

/-- Witness for C9 with an out-of-range confidence (5) and a negative
importance (−3). -/
theorem C9_witness :
    (factsInRange (upsert_fact state0 "7" "k" "v" (some 5) 100).facts ∧
      episodesInRange (upsert_fact state0 "7" "k" "v" (some 5) 100).episodes) ∧
    (factsInRange (add_episode envNone state0 "7" "t" [] (some (-3)) none true 100).facts ∧
      episodesInRange (add_episode envNone state0 "7" "t" [] (some (-3)) none true
        100).episodes) ∧
    (factsInRange (extract_and_store envNone state0 "7" llmBad 12 100).facts ∧
      episodesInRange (extract_and_store envNone state0 "7" llmBad 12 100).episodes) :=
  C9_clamped_writes envNone state0 "7" "k" "v" "t" [] (some 5) (some (-3)) none true llmBad
    12 100 (by decide) (by decide)

/-! ## C8: counter reset and pruning around extraction -/

theorem nodup_subset_length {α : Type} [DecidableEq α] {l1 l2 : List α}
    (h : l1.Nodup) (hs : l1 ⊆ l2) : l1.length ≤ l2.length := by
  induction l1 generalizing l2 with
  | nil => simp
  | cons a t ih =>
    rcases List.nodup_cons.mp h with ⟨hna, hnt⟩
    have hal2 : a ∈ l2 := hs (by simp)
    have hsub : t ⊆ l2.erase a := by
      intro x hx
      have hxne : x ≠ a := by
        rintro rfl
        exact hna hx
      exact (List.mem_erase_of_ne hxne).mpr (hs (by simp [hx]))
    have := ih hnt hsub
    have hlen := List.length_erase_of_mem hal2
    have hpos : 1 ≤ l2.length := List.length_pos.mpr (List.ne_nil_of_mem hal2)
    simp only [List.length_cons]
    omega

theorem filter_id_bound {α : Type} (rows : List α) (p q : α → Bool) (idf : α → ℕ)
    (K : List ℕ) (hid : (rows.map idf).Nodup)
    (himp : ∀ r ∈ rows, p r = true → q r = true → idf r ∈ K) :
    ((rows.filter p).filter q).length ≤ K.length := by
  have hsubl : List.Sublist ((rows.filter p).filter q) rows :=
    (List.filter_sublist _).trans (List.filter_sublist _)
  have hnd : (((rows.filter p).filter q).map idf).Nodup := (hsubl.map idf).nodup hid
  have hss : ((rows.filter p).filter q).map idf ⊆ K := by
    intro x hx
    obtain ⟨r, hr, rfl⟩ := List.mem_map.mp hx
    have hrq := List.of_mem_filter hr
    have hrp := List.of_mem_filter (List.mem_of_mem_filter hr)
    exact himp r (List.mem_of_mem_filter (List.mem_of_mem_filter hr)) hrp hrq
  calc ((rows.filter p).filter q).length
      = (((rows.filter p).filter q).map idf).length := (List.length_map _ _).symm
    _ ≤ K.length := nodup_subset_length hnd hss

theorem prune_episodes_bound (st : MemState) (uid : String) (kE kM : ℕ)
    (hid : (st.episodes.map EpisodeRow.id).Nodup) :
    ((prune st uid kE kM).episodes.filter (fun r => r.user_id == uid)).length ≤ kE := by
  have hK : (pruneKeepEp st uid kE).length ≤ kE := by
    rw [pruneKeepEp, List.length_map, List.length_take]
    exact min_le_left _ _
  refine le_trans (filter_id_bound st.episodes _ _ EpisodeRow.id (pruneKeepEp st uid kE)
    hid ?_) hK
  intro r _ hp hq
  rw [Bool.or_eq_true] at hp
  rcases hp with hp | hp
  · rw [hq] at hp
    simp at hp
  · simpa using hp

theorem prune_messages_bound (st : MemState) (uid : String) (kE kM : ℕ)
    (hid : (st.messages.map MsgRow.id).Nodup) :
    ((prune st uid kE kM).messages.filter (fun r => r.user_id == uid)).length ≤ kM := by
  have hK : (pruneKeepMsg st uid kM).length ≤ kM := by
    rw [pruneKeepMsg, List.length_map, List.length_take]
    exact min_le_left _ _
  refine le_trans (filter_id_bound st.messages _ _ MsgRow.id (pruneKeepMsg st uid kM)
    hid ?_) hK
  intro r _ hp hq
  rw [Bool.or_eq_true] at hp
  rcases hp with hp | hp
  · rw [hq] at hp
    simp at hp
  · simpa using hp

/-- The episode-id housekeeping invariant: ids are distinct and below the
autoincrement cursor. -/
def epIdsOk (st : MemState) : Prop :=
  (st.episodes.map EpisodeRow.id).Nodup ∧ ∀ r ∈ st.episodes, r.id < st.next_ep_id

theorem add_episode_idsOk (env : Env) (st : MemState) (uid text : String)
    (tags : List String) (imp : Option ℚ) (ts : Option ℤ) (em : Bool) (now : ℤ)
    (h : epIdsOk st) : epIdsOk (add_episode env st uid text tags imp ts em now) := by
  rcases add_episode_episodes env st uid text tags imp ts em now with ⟨h1, h2⟩ |
    ⟨row, -, hid, h1, h2⟩
  · refine ⟨?_, ?_⟩
    · rw [h1]
      exact h.1
    · intro r hr
      rw [h1] at hr
      rw [h2]
      exact h.2 r hr
  · refine ⟨?_, ?_⟩
    · rw [h1, List.map_append, List.nodup_append]
      refine ⟨h.1, by simp, ?_⟩
      intro x hx hx2
      have : x = row.id := by simpa using hx2
      rw [this, hid] at hx
      obtain ⟨r, hr, hr2⟩ := List.mem_map.mp hx
      have := h.2 r hr
      omega
    · intro r hr
      rw [h2]
      rw [h1] at hr
      rcases List.mem_append.mp hr with hr | hr
      · have := h.2 r hr
        omega
      · have : r = row := by simpa using hr
        rw [this, hid]
        omega

theorem foldl_add_idsOk (env : Env) (uid : String) (now : ℤ)
    (ws : List (String × List String × ℚ)) (st : MemState) (h : epIdsOk st) :
    epIdsOk (ws.foldl (fun st w => add_episode env st uid w.1 w.2.1 (some w.2.2) none true now)
      st) := by
  induction ws generalizing st with
  | nil => exact h
  | cons w ws ih =>
    rw [List.foldl_cons]
    exact ih _ (add_episode_idsOk env st uid w.1 w.2.1 (some w.2.2) none true now h)

theorem foldl_upsert_idsOk (uid : String) (now : ℤ) (ws : List (String × String × ℚ))
    (st : MemState) (h : epIdsOk st) :
    epIdsOk (ws.foldl (fun st w => upsert_fact st uid w.1 w.2.1 (some w.2.2) now) st) := by
  induction ws generalizing st with
  | nil => exact h
  | cons w ws ih =>
    rw [List.foldl_cons]
    refine ih _ ⟨?_, ?_⟩
    · rw [upsert_fact_episodes]
      exact h.1
    · intro r hr
      rw [upsert_fact_episodes] at hr
      rw [upsert_fact_next]
      exact h.2 r hr

theorem foldl_upsert_messages (uid : String) (now : ℤ) (ws : List (String × String × ℚ))
    (st : MemState) :
    (ws.foldl (fun st w => upsert_fact st uid w.1 w.2.1 (some w.2.2) now) st).messages =
      st.messages := by
  induction ws generalizing st with
  | nil => rfl
  | cons w ws ih => rw [List.foldl_cons, ih, upsert_fact_messages]

theorem foldl_add_messages (env : Env) (uid : String) (now : ℤ)
    (ws : List (String × List String × ℚ)) (st : MemState) :
    (ws.foldl (fun st w => add_episode env st uid w.1 w.2.1 (some w.2.2) none true now)
      st).messages = st.messages := by
  induction ws generalizing st with
  | nil => rfl
  | cons w ws ih => rw [List.foldl_cons, ih, add_episode_messages]

/-- C8 (amended; the frozen claim's "reset happens on success, not on a
parse-failure abort" is refuted by `C8_counterexample`): once extraction is
due, `maybe_extract` resets the per-user counter to zero — so
`should_extract` is false immediately after — regardless of the parse
outcome (the facade resets unconditionally after each attempted cycle);
`prune` (bounding the user to 600 episodes and 300 messages) is invoked
exactly on successfully parsed object responses over a non-empty window,
while a parse failure leaves everything but the counter unchanged. -/
theorem C8_counter_reset (env : Env) (s : MemState) (uid : String)
    (llm : List (String × String) → Option JValue) (now : ℤ)
    (hdue : should_extract s uid 8 = true)
    (hepid : (s.episodes.map EpisodeRow.id).Nodup)
    (hfresh : ∀ r ∈ s.episodes, r.id < s.next_ep_id)
    (hmsgid : (s.messages.map MsgRow.id).Nodup) :
    (maybe_extract env s uid llm now).msg_counter uid = 0 ∧
    should_extract (maybe_extract env s uid llm now) uid 8 = false ∧
    (∀ d, llm (get_recent_messages s uid 12) = some d → d.isObj = true →
      get_recent_messages s uid 12 ≠ [] →
      ((maybe_extract env s uid llm now).episodes.filter
        (fun r => r.user_id == uid)).length ≤ 600 ∧
      ((maybe_extract env s uid llm now).messages.filter
        (fun r => r.user_id == uid)).length ≤ 300) ∧
    (llm (get_recent_messages s uid 12) = none →
      maybe_extract env s uid llm now = reset_extract_counter s uid) := by
  have hstep : maybe_extract env s uid llm now =
      reset_extract_counter (extract_and_store env s uid llm 12 now) uid := by
    rw [maybe_extract, hdue]
    rfl
  have hc0 : (maybe_extract env s uid llm now).msg_counter uid = 0 := by
    rw [hstep, reset_extract_counter]
    simp
  refine ⟨hc0, ?_, ?_, ?_⟩
  · rw [should_extract, hc0]
    decide
  · intro d hllm hobj hne
    rw [hstep]
    have heq1 : (reset_extract_counter (extract_and_store env s uid llm 12 now) uid).episodes =
        (extract_and_store env s uid llm 12 now).episodes := rfl
    have heq2 : (reset_extract_counter (extract_and_store env s uid llm 12 now) uid).messages =
        (extract_and_store env s uid llm 12 now).messages := rfl
    rw [heq1, heq2, extract_and_store, if_neg hne, hllm]
    simp only [hobj, Bool.not_true, Bool.false_eq_true, if_false]
    have h1 : epIdsOk s := ⟨hepid, hfresh⟩
    have h2 := foldl_upsert_idsOk uid now
      (factWrites ((jItems (d.getD "facts" (.arr []))).take 10)) s h1
    have h3 := foldl_add_idsOk env uid now
      (epWrites ((jItems (d.getD "episodes" (.arr []))).take 3)) _ h2
    have hmsg2 : ((epWrites ((jItems (d.getD "episodes" (.arr []))).take 3)).foldl
        (fun st w => add_episode env st uid w.1 w.2.1 (some w.2.2) none true now)
        ((factWrites ((jItems (d.getD "facts" (.arr []))).take 10)).foldl
          (fun st w => upsert_fact st uid w.1 w.2.1 (some w.2.2) now) s)).messages =
        s.messages := by
      rw [foldl_add_messages, foldl_upsert_messages]
    constructor
    · exact prune_episodes_bound _ uid 600 300 h3.1
    · refine prune_messages_bound _ uid 600 300 ?_
      rw [hmsg2]
      exact hmsgid
  · intro hnone
    rw [hstep, extract_unchanged env s uid llm 12 now (Or.inl hnone)]

/-- Witness for C8: the parse-failure branch at a concrete state. -/
theorem C8_witness :
    maybe_extract envNone stateMsg "7" llmBad 100 = reset_extract_counter stateMsg "7" :=
  (C8_counter_reset envNone stateMsg "7" llmBad 100 (by decide) (by decide) (by decide)
    (by decide)).2.2.2 rfl

/-- C8 counterexample: the frozen claim says the counter reset happens on
success and not on a parse-failure abort; here the response fails JSON
parsing (the oracle yields `none`), the extraction aborts with no writes,
and the counter is nevertheless reset from 8 to 0. -/
theorem C8_counterexample :
    (maybe_extract envNone stateMsg "7" llmBad 100).msg_counter "7" = 0 ∧
    stateMsg.msg_counter "7" = 8 ∧
    llmBad (get_recent_messages stateMsg "7" 12) = none ∧
    (maybe_extract envNone stateMsg "7" llmBad 100).facts = stateMsg.facts ∧
    (maybe_extract envNone stateMsg "7" llmBad 100).episodes = stateMsg.episodes ∧
    (maybe_extract envNone stateMsg "7" llmBad 100).messages = stateMsg.messages := by
  refine ⟨by decide, rfl, rfl, by decide, by decide, by decide⟩

/-! ## C10: idempotence of `redact`

Support development.  `takeWhile`/`dropWhile` over an append, boundary
lemmas showing no Discord-token match can start inside either replacement
string, and a swap lemma: a match that completes against a blocked tail
also completes against any other tail. -/

theorem twdw_append_stop {p : Char → Bool} {x : List Char} {d : Char} {x2 : List Char}
    (h : x.dropWhile p = d :: x2) (y : List Char) :
    (x ++ y).takeWhile p = x.takeWhile p ∧ (x ++ y).dropWhile p = d :: (x2 ++ y) := by
  constructor
  · have hlen2 : (x.takeWhile p).length + (x.dropWhile p).length = x.length := by
      rw [← List.length_append, List.takeWhile_append_dropWhile]
    rw [h] at hlen2
    simp only [List.length_cons] at hlen2
    rw [List.takeWhile_append]
    rw [if_neg (by omega)]
  · rw [List.dropWhile_append, h]
    simp

theorem twdw_append_all {p : Char → Bool} {x : List Char} (h : x.dropWhile p = [])
    (y : List Char) :
    (x ++ y).takeWhile p = x ++ y.takeWhile p ∧ (x ++ y).dropWhile p = y.dropWhile p := by
  have htw : x.takeWhile p = x := by
    conv_rhs => rw [← List.takeWhile_append_dropWhile p x]
    rw [h, List.append_nil]
  constructor
  · rw [List.takeWhile_append, if_pos (by rw [htw])]
  · rw [List.dropWhile_append, if_pos (by rw [h]; rfl)]

theorem m1Try_eq_some (c : Char) (rest rest2 rest4 : List Char)
    (hc : (c == 'M' || c == 'N') = true)
    (h1 : 20 ≤ (rest.takeWhile isTokChar).length)
    (hd1 : rest.dropWhile isTokChar = '.' :: rest2)
    (h2 : 6 ≤ (rest2.takeWhile isTokChar).length)
    (hd2 : rest2.dropWhile isTokChar = '.' :: rest4)
    (h3 : 20 ≤ (rest4.takeWhile isTokChar).length) :
    m1Try (c :: rest) = some (1 + (rest.takeWhile isTokChar).length + 1 +
      (rest2.takeWhile isTokChar).length + 1 + (rest4.takeWhile isTokChar).length) := by
  simp only [m1Try, hc, if_true, hd1, hd2, h1, h2, h3, if_pos]

theorem m1Try_not_start {c : Char} (h : (c == 'M' || c == 'N') = false) (l : List Char) :
    m1Try (c :: l) = none := by
  simp [m1Try, h]

theorem m1Try_blocked_second {c d : Char} (h : isTokChar d = false) (l : List Char) :
    m1Try (c :: d :: l) = none := by
  simp only [m1Try]
  split
  · simp [List.takeWhile_cons, h]
  · rfl

/-- A list is boundary-blocking when no position could start a Discord-token
match: every character is not `M`/`N`, or is immediately followed by a
non-token character. -/
def bdOk : List Char → Bool
  | [] => true
  | [c] => !(c == 'M' || c == 'N')
  | c :: d :: t => ((!(c == 'M' || c == 'N')) || !isTokChar d) && bdOk (d :: t)

theorem bdOk_none (u : List Char) (hu : bdOk u = true) (j : ℕ) (hj : j < u.length)
    (S : List Char) : m1Try (u.drop j ++ S) = none := by
  induction u generalizing j with
  | nil => simp at hj
  | cons c t ih =>
    match j with
    | 0 =>
      rw [List.drop_zero, List.cons_append]
      match t with
      | [] =>
        have hc : (c == 'M' || c == 'N') = false := by
          simpa [bdOk] using hu
        exact m1Try_not_start hc _
      | d :: t2 =>
        have hu2 : ((!(c == 'M' || c == 'N')) || !isTokChar d) = true := by
          rw [bdOk] at hu
          exact (Bool.and_eq_true_iff.mp hu).1
        rcases Bool.or_eq_true_iff.mp hu2 with h1 | h1
        · exact m1Try_not_start (by simpa using h1) _
        · rw [List.cons_append]
          exact m1Try_blocked_second (by simpa using h1) _
    | j + 1 =>
      rw [List.drop_succ_cons]
      have hbt : bdOk t = true := by
        match t with
        | [] => rfl
        | d :: t2 =>
          rw [bdOk] at hu
          exact (Bool.and_eq_true_iff.mp hu).2
      have hj2 : j < t.length := by
        simp only [List.length_cons] at hj
        omega
      exact ih hbt j hj2

theorem bdOk_redactedToken : bdOk redactedToken = true := by decide

theorem bdOk_eqRedacted : bdOk eqRedacted = true := by decide

theorem m1Try_swap_tail (x yB y : List Char) (n : ℕ)
    (hB : yB = [] ∨ ∃ b yB2, yB = b :: yB2 ∧ isTokChar b = false ∧ (b == '.') = false)
    (h : m1Try (x ++ yB) = some n) :
    ∃ n2, m1Try (x ++ y) = some n2 := by
  have hblockTW : yB.takeWhile isTokChar = [] := by
    rcases hB with rfl | ⟨b, yB2, rfl, hb, hd⟩
    · rfl
    · simp [List.takeWhile_cons, hb]
  have hblockDW : yB.dropWhile isTokChar = yB := by
    rcases hB with rfl | ⟨b, yB2, rfl, hb, hd⟩
    · rfl
    · simp [List.dropWhile_cons, hb]
  match x with
  | [] =>
    exfalso
    rw [List.nil_append] at h
    rcases hB with rfl | ⟨b, yB2, rfl, hb, hd⟩
    · simp [m1Try] at h
    · have hbMN : (b == 'M' || b == 'N') = false := by
        rcases Bool.eq_false_or_eq_true (b == 'M') with h1 | h1
        · obtain rfl : b = 'M' := by simpa using h1
          exact absurd hb (by decide)
        · rcases Bool.eq_false_or_eq_true (b == 'N') with h2 | h2
          · obtain rfl : b = 'N' := by simpa using h2
            exact absurd hb (by decide)
          · rw [h1, h2]
            rfl
      rw [m1Try_not_start hbMN] at h
      exact absurd h (by simp)
  | c :: u =>
    rw [List.cons_append] at h
    simp only [m1Try] at h
    split at h
    case isFalse => exact absurd h (by simp)
    case isTrue hc =>
    rcases hdu : u.dropWhile isTokChar with _ | ⟨d, u2⟩
    · exfalso
      have h2 := (twdw_append_all hdu yB).2
      rw [hblockDW] at h2
      rw [h2] at h
      split at h
      case isFalse => exact absurd h (by simp)
      case isTrue =>
      rcases hB with rfl | ⟨b, yB2, rfl, hb, hd⟩
      · simp at h
      · split at h
        case h_1 rest2 heq =>
          injection heq with hb2 hrest
          rw [hb2] at hd
          simp at hd
        case h_2 => exact absurd h (by simp)
    · obtain ⟨htw1, hdw1⟩ := twdw_append_stop hdu yB
      rw [htw1, hdw1] at h
      split at h
      case isFalse => exact absurd h (by simp)
      case isTrue h20 =>
      split at h
      case h_2 => exact absurd h (by simp)
      case h_1 rest2 heq =>
      obtain ⟨rfl, rfl⟩ : d = '.' ∧ rest2 = u2 ++ yB := by
        injection heq with e1 e2
        exact ⟨e1, e2.symm⟩
      rcases hdu2 : u2.dropWhile isTokChar with _ | ⟨e, u3⟩
      · exfalso
        have h3 := (twdw_append_all hdu2 yB).2
        rw [hblockDW] at h3
        rw [h3] at h
        split at h
        case isFalse => exact absurd h (by simp)
        case isTrue =>
        rcases hB with rfl | ⟨b, yB2, rfl, hb, hd⟩
        · simp at h
        · split at h
          case h_1 rest4 heq2 =>
            injection heq2 with hb2 hrest
            rw [hb2] at hd
            simp at hd
          case h_2 => exact absurd h (by simp)
      · obtain ⟨htw2, hdw2⟩ := twdw_append_stop hdu2 yB
        rw [htw2, hdw2] at h
        split at h
        case isFalse => exact absurd h (by simp)
        case isTrue h6 =>
        split at h
        case h_2 => exact absurd h (by simp)
        case h_1 rest4 heq2 =>
        obtain ⟨rfl, rfl⟩ : e = '.' ∧ rest4 = u3 ++ yB := by
          injection heq2 with e1 e2
          exact ⟨e1, e2.symm⟩
        split at h
        case isFalse => exact absurd h (by simp)
        case isTrue h20b =>
        have h20c : 20 ≤ ((u3 ++ y).takeWhile isTokChar).length := by
          rcases hdu3 : u3.dropWhile isTokChar with _ | ⟨f, u4⟩
          · have e1 := (twdw_append_all hdu3 yB).1
            rw [hblockTW, List.append_nil] at e1
            have e2 := (twdw_append_all hdu3 y).1
            rw [e1] at h20b
            rw [e2, List.length_append]
            omega
          · have e1 := (twdw_append_stop hdu3 yB).1
            have e2 := (twdw_append_stop hdu3 y).1
            rw [e1] at h20b
            rw [e2]
            exact h20b
        rw [List.cons_append]
        exact ⟨_, m1Try_eq_some c (u ++ y) (u2 ++ y) (u3 ++ y) hc
          (by rw [(twdw_append_stop hdu y).1]; exact h20)
          ((twdw_append_stop hdu y).2)
          (by rw [(twdw_append_stop hdu2 y).1]; exact h6)
          ((twdw_append_stop hdu2 y).2)
          h20c⟩

/-- No position of `l` starts a Discord-token match. -/
def noM1 (l : List Char) : Prop := ∀ i, m1Try (l.drop i) = none

theorem noM1_cons_elim {c : Char} {t : List Char} (h : noM1 (c :: t)) : noM1 t := by
  intro i
  have h2 := h (i + 1)
  rwa [List.drop_succ_cons] at h2

theorem noM1_drop {l : List Char} (h : noM1 l) (n : ℕ) : noM1 (l.drop n) := by
  intro i
  rw [List.drop_drop]
  exact h (n + i)

theorem sub1Go_nil : sub1Go [] = [] := by
  rw [sub1Go.eq_def]

theorem sub1Go_none {c : Char} {rest : List Char} (h : m1Try (c :: rest) = none) :
    sub1Go (c :: rest) = c :: sub1Go rest := by
  rw [sub1Go.eq_def]
  split
  · rename_i heq
    exact absurd heq (by simp)
  · rename_i c2 rest2 heq
    obtain ⟨rfl, rfl⟩ : c = c2 ∧ rest = rest2 := by
      injection heq with h1 h2
      exact ⟨h1, h2⟩
    split
    · rename_i n heq2
      rw [h] at heq2
      exact absurd heq2 (by simp)
    · rfl

theorem sub1Go_some {c : Char} {rest : List Char} {n : ℕ} (h : m1Try (c :: rest) = some n) :
    sub1Go (c :: rest) = redactedToken ++ sub1Go ((c :: rest).drop n) := by
  rw [sub1Go.eq_def]
  split
  · rename_i heq
    exact absurd heq (by simp)
  · rename_i c2 rest2 heq
    obtain ⟨rfl, rfl⟩ : c = c2 ∧ rest = rest2 := by
      injection heq with h1 h2
      exact ⟨h1, h2⟩
    split
    · rename_i m heq2
      rw [h] at heq2
      obtain rfl : n = m := by simpa using heq2
      rfl
    · rename_i heq2
      rw [h] at heq2
      exact absurd heq2 (by simp)

theorem sub1Go_of_noM1 (l : List Char) (h : noM1 l) : sub1Go l = l := by
  induction l with
  | nil => exact sub1Go_nil
  | cons c rest ih =>
    have h0 : m1Try (c :: rest) = none := by
      have h2 := h 0
      rwa [List.drop_zero] at h2
    rw [sub1Go_none h0, ih (noM1_cons_elim h)]

theorem sub1Go_split (l : List Char) :
    sub1Go l = l ∨ ∃ u v w n, l = u ++ v ∧ sub1Go l = u ++ w ∧ m1Try v = some n ∧
      w = redactedToken ++ sub1Go (v.drop n) := by
  induction l with
  | nil => exact Or.inl sub1Go_nil
  | cons c rest ih =>
    rcases hm : m1Try (c :: rest) with _ | n
    · rcases ih with h1 | ⟨u, v, w, n, he1, he2, hm2, hw⟩
      · exact Or.inl (by rw [sub1Go_none hm, h1])
      · refine Or.inr ⟨c :: u, v, w, n, ?_, ?_, hm2, hw⟩
        · rw [List.cons_append, ← he1]
        · rw [sub1Go_none hm, he2, List.cons_append]
    · exact Or.inr ⟨[], c :: rest, redactedToken ++ sub1Go ((c :: rest).drop n), n, rfl,
        by rw [sub1Go_some hm, List.nil_append], hm, rfl⟩

theorem redactedToken_head (S : List Char) :
    ∃ b yB2, redactedToken ++ S = b :: yB2 ∧ isTokChar b = false ∧ (b == '.') = false := by
  refine ⟨'[', "REDACTED_TOKEN]".data ++ S, ?_, by decide, by decide⟩
  rw [show redactedToken = '[' :: "REDACTED_TOKEN]".data from by decide, List.cons_append]

theorem eqRedacted_head (S : List Char) :
    ∃ b yB2, eqRedacted ++ S = b :: yB2 ∧ isTokChar b = false ∧ (b == '.') = false := by
  refine ⟨'=', "[REDACTED]".data ++ S, ?_, by decide, by decide⟩
  rw [show eqRedacted = '=' :: "[REDACTED]".data from by decide, List.cons_append]

theorem noM1_sub1Go_aux (k : ℕ) : ∀ l : List Char, l.length ≤ k → noM1 (sub1Go l) := by
  induction k with
  | zero =>
    intro l hl
    obtain rfl : l = [] := List.eq_nil_of_length_eq_zero (by omega)
    intro i
    rw [sub1Go_nil, List.drop_nil]
    rfl
  | succ k ih =>
    intro l hl
    match l with
    | [] =>
      intro i
      rw [sub1Go_nil, List.drop_nil]
      rfl
    | c :: rest =>
      have hrl : rest.length ≤ k := by
        simp only [List.length_cons] at hl
        omega
      rcases hm : m1Try (c :: rest) with _ | n
      · rw [sub1Go_none hm]
        intro i
        match i with
        | 0 =>
          rw [List.drop_zero]
          rcases sub1Go_split rest with h1 | ⟨u, v, w, m, he1, he2, hm2, hw⟩
          · rw [h1]
            exact hm
          · rw [he2, hw]
            by_contra hne
            obtain ⟨n2, hn2⟩ : ∃ n2, m1Try (c :: (u ++ (redactedToken ++
                sub1Go (v.drop m)))) = some n2 := by
              rcases ho : m1Try (c :: (u ++ (redactedToken ++ sub1Go (v.drop m)))) with _ | n3
              · exact absurd ho hne
              · exact ⟨n3, rfl⟩
            rw [← List.cons_append] at hn2
            obtain ⟨n4, hn4⟩ := m1Try_swap_tail ((c :: u)) _ v n2
              (Or.inr (redactedToken_head _)) hn2
            rw [List.cons_append, ← he1] at hn4
            rw [hm] at hn4
            exact absurd hn4 (by simp)
        | i + 1 =>
          rw [List.drop_succ_cons]
          exact ih rest hrl i
      · rw [sub1Go_some hm]
        intro i
        by_cases hi : i < redactedToken.length
        · rw [List.drop_append_eq_append_drop,
            show i - redactedToken.length = 0 by omega, List.drop_zero]
          exact bdOk_none redactedToken bdOk_redactedToken i hi _
        · rw [List.drop_append_eq_append_drop,
            List.drop_eq_nil_of_le (by omega), List.nil_append]
          have hb := m1Try_bounds _ _ hm
          have hlen : ((c :: rest).drop n).length ≤ k := by
            rw [List.length_drop]
            simp only [List.length_cons]
            omega
          exact ih _ hlen _

theorem noM1_sub1Go (l : List Char) : noM1 (sub1Go l) :=
  noM1_sub1Go_aux l.length l (le_refl _)

/-! ### Key-pattern matching support -/

theorem litCI_front (p x y : List Char) (h : p.length ≤ x.length) :
    litCI p (x ++ y) = litCI p x := by
  induction p generalizing x with
  | nil => rfl
  | cons a ps ih =>
    match x with
    | [] => simp at h
    | c :: cs =>
      rw [List.cons_append, litCI, litCI]
      simp only [List.length_cons] at h
      rw [ih cs (by omega)]

theorem litCI_take (p l : List Char) (h : p.length ≤ l.length) :
    litCI p (l.take p.length) = litCI p l := by
  conv_rhs => rw [← List.take_append_drop p.length l]
  rw [litCI_front p _ _ (by rw [List.length_take]; omega)]

theorem litCI_mem_of_long (p x : List Char) (b : Char) (z : List Char)
    (h : litCI p (x ++ b :: z) = true) (hlen : x.length < p.length) :
    b.toLower ∈ p := by
  induction p generalizing x with
  | nil => simp at hlen
  | cons a ps ih =>
    match x with
    | [] =>
      rw [List.nil_append, litCI, Bool.and_eq_true_iff] at h
      have ha : a = b.toLower := by simpa using h.1
      rw [ha]
      exact List.mem_cons_self _ _
    | c :: cs =>
      rw [List.cons_append, litCI, Bool.and_eq_true_iff] at h
      simp only [List.length_cons] at hlen
      exact List.mem_cons_of_mem _ (ih cs h.2 (by omega))

theorem keyPats_chars : ∀ p ∈ keyPats, ∀ ch ∈ p,
    (isPySpace ch || ch == ':' || ch == '=') = false := by decide

theorem keyPats_len : ∀ p ∈ keyPats, 1 ≤ p.length ∧ p.length ≤ 8 := by decide

/-- The characters that can immediately follow a matched key name inside a
key/value match: whitespace or the separator; none of them occurs in any
key pattern. -/
def isStopChar (c : Char) : Bool := isPySpace c || c == ':' || c == '='

theorem litCI_stop_false (p : List Char) (hp : p ∈ keyPats) (x : List Char) (b : Char)
    (z : List Char) (hb : isStopChar b = true) (hlen : x.length < p.length) :
    litCI p (x ++ b :: z) = false := by
  rcases Bool.eq_false_or_eq_true (litCI p (x ++ b :: z)) with h | h
  · exfalso
    have hmem := litCI_mem_of_long p x b z h hlen
    have hchars := keyPats_chars p hp _ hmem
    rw [isStopChar] at hb
    rcases Bool.or_eq_true_iff.mp hb with hb1 | hb3
    · rcases Bool.or_eq_true_iff.mp hb1 with hb4 | hb5
      · rw [sp_toLower b hb4, hb4] at hchars
        simp at hchars
      · obtain rfl : b = ':' := by simpa using hb5
        exact absurd hchars (by decide)
    · obtain rfl : b = '=' := by simpa using hb3
      exact absurd hchars (by decide)
  · exact h

theorem find?_congr {α : Type} (f g : α → Bool) (l : List α) (h : ∀ a ∈ l, f a = g a) :
    l.find? f = l.find? g := by
  induction l with
  | nil => rfl
  | cons a t ih =>
    have ih2 := ih (fun x hx => h x (List.mem_cons_of_mem a hx))
    have ha := h a (List.mem_cons_self a t)
    rcases Bool.eq_false_or_eq_true (g a) with hg | hg
    · rw [List.find?_cons_of_pos t (by rw [ha]; exact hg), List.find?_cons_of_pos t hg]
    · rw [List.find?_cons_of_neg t (by rw [ha, hg]; simp),
        List.find?_cons_of_neg t (by rw [hg]; simp), ih2]

theorem keyTry_stop_head (c : Char) (t : List Char) (hc : isStopChar c = true) :
    keyTry (c :: t) = none := by
  have h : keyPats.find? (fun p => litCI p (c :: t)) = none := by
    rw [List.find?_eq_none]
    intro p hp
    have hlen : 0 < p.length := (keyPats_len p hp).1
    have hf := litCI_stop_false p hp [] c t hc (by simpa using hlen)
    rw [List.nil_append] at hf
    simp [hf]
  rw [keyTry, h]
  rfl

theorem m2Try_none_of_keyTry (l : List Char) (h : keyTry l = none) : m2Try l = none := by
  rw [m2Try, h]

theorem m2Try_eq_some (l : List Char) (k : ℕ) (sep : Char) (r2 : List Char)
    (hk : keyTry l = some k)
    (hd : (l.drop k).dropWhile isPySpace = sep :: r2)
    (hsep : (sep == ':' || sep == '=') = true)
    (hv : ((r2.dropWhile isPySpace).takeWhile (fun x => !isPySpace x)).length ≠ 0) :
    m2Try l = some (k, k + ((l.drop k).takeWhile isPySpace).length + 1 +
      (r2.takeWhile isPySpace).length +
      ((r2.dropWhile isPySpace).takeWhile (fun x => !isPySpace x)).length) := by
  simp only [m2Try, hk, hd, hsep, if_true, if_neg hv]

theorem m2Try_decomp (l : List Char) (k n : ℕ) (h : m2Try l = some (k, n)) :
    keyTry l = some k ∧ ∃ sep r2, (l.drop k).dropWhile isPySpace = sep :: r2 ∧
      (sep == ':' || sep == '=') = true ∧
      ((r2.dropWhile isPySpace).takeWhile (fun x => !isPySpace x)).length ≠ 0 ∧
      n = k + ((l.drop k).takeWhile isPySpace).length + 1 +
        (r2.takeWhile isPySpace).length +
        ((r2.dropWhile isPySpace).takeWhile (fun x => !isPySpace x)).length := by
  rw [m2Try] at h
  match hk : keyTry l with
  | none =>
    rw [hk] at h
    simp at h
  | some k0 =>
    rw [hk] at h
    simp only at h
    split at h
    case h_1 heq => simp at h
    case h_2 sep r2 heq =>
      split at h
      case isFalse => simp at h
      case isTrue hsep =>
        split at h
        case isTrue => simp at h
        case isFalse hv =>
          have hin := Option.some.inj h
          obtain ⟨h1, h2⟩ : k0 = k ∧ _ = n := ⟨congrArg Prod.fst hin, congrArg Prod.snd hin⟩
          subst h1
          exact ⟨rfl, sep, r2, heq, hsep, hv, h2.symm⟩

theorem drop_length_takeWhile (p : Char → Bool) (l : List Char) :
    l.drop (l.takeWhile p).length = l.dropWhile p := by
  have h := List.takeWhile_append_dropWhile p l
  calc l.drop (l.takeWhile p).length
      = (l.takeWhile p ++ l.dropWhile p).drop (l.takeWhile p).length := by rw [h]
    _ = l.dropWhile p := List.drop_left _ _

theorem m2Try_drop_head (l : List Char) (k n : ℕ) (h : m2Try l = some (k, n)) (c : Char)
    (t : List Char) (hd : l.drop n = c :: t) : isPySpace c = true := by
  obtain ⟨hk, sep, r2, hsep1, hsep2, hv, hn⟩ := m2Try_decomp l k n h
  have e1 : l.drop n = (r2.dropWhile isPySpace).dropWhile (fun x => !isPySpace x) := by
    rw [hn, ← List.drop_drop, ← List.drop_drop, ← List.drop_drop, ← List.drop_drop,
      drop_length_takeWhile isPySpace (l.drop k), hsep1, List.drop_succ_cons,
      List.drop_zero, drop_length_takeWhile isPySpace r2,
      drop_length_takeWhile (fun x => !isPySpace x) (r2.dropWhile isPySpace)]
  rw [e1] at hd
  have h2 := dropWhile_head_not _ _ _ _ hd
  simpa using h2

theorem sub2Go_nil : sub2Go [] = [] := by
  rw [sub2Go.eq_def]

theorem sub2Go_none {c : Char} {rest : List Char} (h : m2Try (c :: rest) = none) :
    sub2Go (c :: rest) = c :: sub2Go rest := by
  rw [sub2Go.eq_def]
  split
  · rename_i heq
    exact absurd heq (by simp)
  · rename_i c2 rest2 heq
    obtain ⟨rfl, rfl⟩ : c = c2 ∧ rest = rest2 := by
      injection heq with h1 h2
      exact ⟨h1, h2⟩
    split
    · rename_i kn heq2
      rw [h] at heq2
      exact absurd heq2 (by simp)
    · rfl

theorem sub2Go_some {c : Char} {rest : List Char} {k n : ℕ}
    (h : m2Try (c :: rest) = some (k, n)) :
    sub2Go (c :: rest) = (c :: rest).take k ++ eqRedacted ++
      sub2Go ((c :: rest).drop n) := by
  rw [sub2Go.eq_def]
  split
  · rename_i heq
    exact absurd heq (by simp)
  · rename_i c2 rest2 heq
    obtain ⟨rfl, rfl⟩ : c = c2 ∧ rest = rest2 := by
      injection heq with h1 h2
      exact ⟨h1, h2⟩
    split
    · rename_i kn heq2
      rw [h] at heq2
      obtain rfl : kn = (k, n) := by simpa using heq2.symm
      rfl
    · rename_i heq2
      rw [h] at heq2
      exact absurd heq2 (by simp)

theorem sub2Go_split (l : List Char) :
    sub2Go l = l ∨ ∃ u v w k n, l = u ++ v ∧ sub2Go l = u ++ w ∧ m2Try v = some (k, n) ∧
      w = v.take k ++ (eqRedacted ++ sub2Go (v.drop n)) := by
  induction l with
  | nil => exact Or.inl sub2Go_nil
  | cons c rest ih =>
    rcases hm : m2Try (c :: rest) with _ | kn
    · rcases ih with h1 | ⟨u, v, w, k, n, he1, he2, hm2, hw⟩
      · exact Or.inl (by rw [sub2Go_none hm, h1])
      · refine Or.inr ⟨c :: u, v, w, k, n, ?_, ?_, hm2, hw⟩
        · rw [List.cons_append, ← he1]
        · rw [sub2Go_none hm, he2, List.cons_append]
    · obtain ⟨k, n⟩ := kn
      refine Or.inr ⟨[], c :: rest, (c :: rest).take k ++ (eqRedacted ++
        sub2Go ((c :: rest).drop n)), k, n, rfl, ?_, hm, rfl⟩
      rw [sub2Go_some hm, List.nil_append, List.append_assoc]

theorem eqRedacted_cons2 : eqRedacted = '=' :: "[REDACTED]".data := by decide

theorem bracketRD_cons : ("[REDACTED]".data : List Char) = '[' :: "REDACTED]".data := by
  decide

theorem eqRedacted_len : eqRedacted.length = 11 := by decide

/-- A kept key name: scanning it followed by the replacement tail finds the
same key pattern again, of exactly the key's length. -/
def IsKey (key : List Char) : Prop := keyTry (key ++ eqRedacted) = some key.length

theorem isKey_of_keyTry (l : List Char) (k : ℕ) (h : keyTry l = some k) :
    IsKey (l.take k) := by
  rw [keyTry] at h
  match hf : keyPats.find? (fun p => litCI p l) with
  | none =>
    rw [hf] at h
    simp at h
  | some p =>
    rw [hf] at h
    have hkp : p.length = k := by simpa using h
    subst hkp
    obtain ⟨hp_true, as, bs, hsplit, h_as⟩ := List.find?_eq_some.mp hf
    have hp2 : litCI p l = true := by simpa using hp_true
    have hple : p.length ≤ l.length := litCI_length_le p l hp2
    have hlen_take : (l.take p.length).length = p.length := by
      rw [List.length_take]
      omega
    have hfind : keyPats.find? (fun q => litCI q (l.take p.length ++ eqRedacted)) =
        some p := by
      rw [List.find?_eq_some]
      refine ⟨?_, as, bs, hsplit, ?_⟩
      · show litCI p (l.take p.length ++ eqRedacted) = true
        rw [litCI_front p _ _ (le_of_eq hlen_take.symm), litCI_take p l hple]
        exact hp2
      · intro q hq
        show (!litCI q (l.take p.length ++ eqRedacted)) = true
        have hqpats : q ∈ keyPats := by
          rw [hsplit]
          exact List.mem_append_left _ hq
        have hqfalse : litCI q l = false := by simpa using h_as q hq
        by_cases hcase : q.length ≤ p.length
        · rw [litCI_front q _ _ (by rw [hlen_take]; exact hcase)]
          have e : litCI q (l.take p.length ++ l.drop p.length) = litCI q (l.take p.length) :=
            litCI_front q _ _ (by rw [hlen_take]; exact hcase)
          rw [List.take_append_drop] at e
          rw [← e, hqfalse]
          rfl
        · rw [eqRedacted_cons2,
            litCI_stop_false q hqpats _ '=' _ (by decide) (by rw [hlen_take]; omega)]
          rfl
    rw [IsKey, keyTry, hfind]
    simp [hlen_take]

theorem keyPats_le_eqR (q : List Char) (hq : q ∈ keyPats) (x : List Char) :
    q.length ≤ (x ++ eqRedacted).length := by
  rw [List.length_append, eqRedacted_len]
  have h := (keyPats_len q hq).2
  omega

theorem isKey_keyTry_append (key : List Char) (hk : IsKey key) (S : List Char) :
    keyTry (key ++ eqRedacted ++ S) = some key.length := by
  rw [IsKey] at hk
  rw [keyTry]
  have hcg := find?_congr (fun q => litCI q ((key ++ eqRedacted) ++ S))
    (fun q => litCI q (key ++ eqRedacted)) keyPats
    (fun q hq => litCI_front q (key ++ eqRedacted) S (keyPats_le_eqR q hq key))
  rw [hcg]
  exact hk

theorem m2Try_on_repl (key S : List Char) (hk : IsKey key)
    (hS : S = [] ∨ ∃ c t, S = c :: t ∧ isPySpace c = true) :
    m2Try (key ++ eqRedacted ++ S) = some (key.length, key.length + 11) := by
  have hkt := isKey_keyTry_append key hk S
  have hdrop : ((key ++ eqRedacted) ++ S).drop key.length = eqRedacted ++ S := by
    rw [List.append_assoc]
    exact List.drop_left _ _
  have heqS : eqRedacted ++ S = '=' :: ("[REDACTED]".data ++ S) := by
    rw [eqRedacted_cons2, List.cons_append]
  have hRDS : ("[REDACTED]".data ++ S : List Char) = '[' :: ("REDACTED]".data ++ S) := by
    rw [bracketRD_cons, List.cons_append]
  have hd : (((key ++ eqRedacted) ++ S).drop key.length).dropWhile isPySpace =
      '=' :: ("[REDACTED]".data ++ S) := by
    rw [hdrop, heqS, List.dropWhile_cons_of_neg (by decide)]
  have hw1 : ((((key ++ eqRedacted) ++ S).drop key.length).takeWhile isPySpace).length = 0 := by
    rw [hdrop, heqS, List.takeWhile_cons_of_neg (by decide)]
    rfl
  have hw2 : (("[REDACTED]".data ++ S).takeWhile isPySpace).length = 0 := by
    rw [hRDS, List.takeWhile_cons_of_neg (by decide)]
    rfl
  have hdw0 : ("[REDACTED]".data ++ S).dropWhile isPySpace = "[REDACTED]".data ++ S := by
    rw [hRDS, List.dropWhile_cons_of_neg (by decide), ← hRDS]
  have hRDall : ("[REDACTED]".data : List Char).dropWhile (fun x => !isPySpace x) = [] := by
    decide
  have hSnil : S.takeWhile (fun x => !isPySpace x) = [] := by
    rcases hS with rfl | ⟨c, t, rfl, hc⟩
    · rfl
    · rw [List.takeWhile_cons_of_neg (by simp [hc])]
  have hv : (("[REDACTED]".data ++ S).takeWhile (fun x => !isPySpace x)).length = 10 := by
    rw [(twdw_append_all hRDall S).1, hSnil, List.append_nil]
    decide
  have hvne : ((("[REDACTED]".data ++ S).dropWhile isPySpace).takeWhile
      (fun x => !isPySpace x)).length ≠ 0 := by
    rw [hdw0, hv]
    omega
  have hm := m2Try_eq_some ((key ++ eqRedacted) ++ S) key.length '='
    ("[REDACTED]".data ++ S) hkt hd (by decide) hvne
  rw [hm, hw1, hdw0, hv, hw2]

theorem keyTry_le_of_stop (x : List Char) (b : Char) (t : List Char) (k : ℕ)
    (hb : isStopChar b = true) (h : keyTry (x ++ b :: t) = some k) : k ≤ x.length := by
  rw [keyTry] at h
  match hf : keyPats.find? (fun p => litCI p (x ++ b :: t)) with
  | none =>
    rw [hf] at h
    simp at h
  | some p =>
    rw [hf] at h
    have hkp : p.length = k := by simpa using h
    by_contra hgt
    have hptrue : litCI p (x ++ b :: t) = true := by simpa using List.find?_some hf
    rw [litCI_stop_false p (List.mem_of_find?_eq_some hf) x b t hb (by omega)] at hptrue
    exact absurd hptrue (by simp)

theorem m2Try_swap_tail (x dIn S : List Char) (sep : Char) (r2 : List Char)
    (hsepIn : dIn.dropWhile isPySpace = sep :: r2)
    (hsep : (sep == ':' || sep == '=') = true)
    (hv : ((r2.dropWhile isPySpace).takeWhile (fun x => !isPySpace x)).length ≠ 0)
    (hIn : m2Try (x ++ dIn) = none) :
    m2Try (x ++ (eqRedacted ++ S)) = none := by
  have hsepSpace : isPySpace sep = false := by
    rcases Bool.or_eq_true_iff.mp hsep with h1 | h1
    · obtain rfl : sep = ':' := by simpa using h1
      decide
    · obtain rfl : sep = '=' := by simpa using h1
      decide
  have hInNil : dIn ≠ [] := by
    intro hnil
    rw [hnil] at hsepIn
    simp at hsepIn
  have hInHead : ∀ b t, dIn = b :: t → isStopChar b = true := by
    intro b t hbt
    rcases Bool.eq_false_or_eq_true (isPySpace b) with hb | hb
    · rw [isStopChar, hb]
      rfl
    · have hsame : dIn.dropWhile isPySpace = dIn := by
        rw [hbt, List.dropWhile_cons_of_neg (by simp [hb])]
      rw [hsame, hbt] at hsepIn
      injection hsepIn with h1 h2
      rw [isStopChar, h1, hsepSpace]
      simpa using hsep
  have heqS : eqRedacted ++ S = '=' :: ("[REDACTED]".data ++ S) := by
    rw [eqRedacted_cons2, List.cons_append]
  have hkeq : keyTry (x ++ (eqRedacted ++ S)) = keyTry (x ++ dIn) := by
    rw [keyTry, keyTry]
    have hcg := find?_congr (fun q => litCI q (x ++ (eqRedacted ++ S)))
      (fun q => litCI q (x ++ dIn)) keyPats ?_
    · rw [hcg]
    · intro q hq
      by_cases hcase : q.length ≤ x.length
      · show litCI q (x ++ (eqRedacted ++ S)) = litCI q (x ++ dIn)
        rw [litCI_front q x _ hcase, litCI_front q x _ hcase]
      · obtain ⟨b, t, hbt⟩ : ∃ b t, dIn = b :: t := List.exists_cons_of_ne_nil hInNil
        show litCI q (x ++ (eqRedacted ++ S)) = litCI q (x ++ dIn)
        rw [hbt, heqS,
          litCI_stop_false q hq x '=' _ (by decide) (by omega),
          litCI_stop_false q hq x b t (hInHead b t hbt) (by omega)]
  by_contra hne
  obtain ⟨kn, hOut⟩ : ∃ kn, m2Try (x ++ (eqRedacted ++ S)) = some kn := by
    rcases ho : m2Try (x ++ (eqRedacted ++ S)) with _ | kn
    · exact absurd ho hne
    · exact ⟨kn, rfl⟩
  obtain ⟨k2, n2⟩ := kn
  obtain ⟨hkOut, sepO, r2O, hdO, hsepO, hvO, hnO⟩ := m2Try_decomp _ k2 n2 hOut
  have hkIn : keyTry (x ++ dIn) = some k2 := by
    rw [← hkeq]
    exact hkOut
  have hk2le : k2 ≤ x.length := by
    rw [heqS] at hkOut
    exact keyTry_le_of_stop x '=' _ k2 (by decide) hkOut
  have hdropIn : (x ++ dIn).drop k2 = x.drop k2 ++ dIn :=
    List.drop_append_of_le_length hk2le
  have hdropOut : (x ++ (eqRedacted ++ S)).drop k2 = x.drop k2 ++ (eqRedacted ++ S) :=
    List.drop_append_of_le_length hk2le
  rcases hz : (x.drop k2).dropWhile isPySpace with _ | ⟨d, z2⟩
  · have hdwIn : ((x ++ dIn).drop k2).dropWhile isPySpace = sep :: r2 := by
      rw [hdropIn, (twdw_append_all hz dIn).2, hsepIn]
    have hm := m2Try_eq_some (x ++ dIn) k2 sep r2 hkIn hdwIn hsep hv
    rw [hIn] at hm
    exact absurd hm (by simp)
  · have hdns : isPySpace d = false := dropWhile_head_not _ _ _ _ hz
    have hdwOut : ((x ++ (eqRedacted ++ S)).drop k2).dropWhile isPySpace =
        d :: (z2 ++ (eqRedacted ++ S)) := by
      rw [hdropOut, (twdw_append_stop hz (eqRedacted ++ S)).2]
    rw [hdwOut] at hdO
    injection hdO with hd1 hd2
    have hdwIn : ((x ++ dIn).drop k2).dropWhile isPySpace = d :: (z2 ++ dIn) := by
      rw [hdropIn, (twdw_append_stop hz dIn).2]
    have hvIn : (((z2 ++ dIn).dropWhile isPySpace).takeWhile
        (fun x => !isPySpace x)).length ≠ 0 := by
      rcases hz2 : z2.dropWhile isPySpace with _ | ⟨e, z3⟩
      · rw [(twdw_append_all hz2 dIn).2, hsepIn,
          List.takeWhile_cons_of_pos (by simp [hsepSpace])]
        simp
      · have he : isPySpace e = false := dropWhile_head_not _ _ _ _ hz2
        rw [(twdw_append_stop hz2 dIn).2,
          List.takeWhile_cons_of_pos (by simp [he])]
        simp
    have hm := m2Try_eq_some (x ++ dIn) k2 d (z2 ++ dIn) hkIn hdwIn (by rw [hd1]; exact hsepO)
      hvIn
    rw [hIn] at hm
    exact absurd hm (by simp)

/-- Shape of `sub2Go` output: preserved characters interleaved with
`key=[REDACTED]` replacements followed by whitespace (or the end). -/
inductive Good2 : List Char → Prop where
  | nil : Good2 []
  | keep (c : Char) (t : List Char) : m2Try (c :: t) = none → Good2 t → Good2 (c :: t)
  | repl (key S : List Char) : IsKey key →
      (S = [] ∨ ∃ c t, S = c :: t ∧ isPySpace c = true) → Good2 S →
      Good2 (key ++ (eqRedacted ++ S))

theorem sub2Go_of_good2 (m : List Char) (h : Good2 m) : sub2Go m = m := by
  induction h with
  | nil => exact sub2Go_nil
  | keep c t hm hg ih => rw [sub2Go_none hm, ih]
  | repl key S hk hS hg ih =>
    have hne : key ≠ [] := by
      intro hnil
      rw [hnil] at hk
      have hb := keyTry_bounds _ _ hk
      simp at hb
    obtain ⟨kc, kt, rfl⟩ : ∃ kc kt, key = kc :: kt := List.exists_cons_of_ne_nil hne
    have hm := m2Try_on_repl (kc :: kt) S hk hS
    rw [List.append_assoc, List.cons_append] at hm
    have hsplit : (kc :: kt) ++ (eqRedacted ++ S) = kc :: (kt ++ (eqRedacted ++ S)) :=
      List.cons_append kc kt (eqRedacted ++ S)
    have htake : (kc :: (kt ++ (eqRedacted ++ S))).take (kc :: kt).length = kc :: kt := by
      rw [← hsplit]
      exact List.take_left _ _
    have hdrop : (kc :: (kt ++ (eqRedacted ++ S))).drop ((kc :: kt).length + 11) = S := by
      rw [← hsplit, List.drop_append, List.drop_left' eqRedacted_len]
    rw [hsplit, sub2Go_some hm, htake, hdrop, ih, List.append_assoc, hsplit]

theorem good2_sub2Go_aux (k : ℕ) : ∀ l : List Char, l.length ≤ k → Good2 (sub2Go l) := by
  induction k with
  | zero =>
    intro l hl
    obtain rfl : l = [] := List.eq_nil_of_length_eq_zero (by omega)
    rw [sub2Go_nil]
    exact Good2.nil
  | succ k ih =>
    intro l hl
    match l with
    | [] =>
      rw [sub2Go_nil]
      exact Good2.nil
    | c :: rest =>
      have hrl : rest.length ≤ k := by
        simp only [List.length_cons] at hl
        omega
      rcases hm : m2Try (c :: rest) with _ | kn
      · rw [sub2Go_none hm]
        refine Good2.keep c (sub2Go rest) ?_ (ih rest hrl)
        rcases sub2Go_split rest with h1 | ⟨u, v, w, k2, n2, he1, he2, hm2, hw⟩
        · rw [h1]
          exact hm
        · rw [he2, hw]
          obtain ⟨hkv, sep, r2, hsepv, hsepT, hvv, hnv⟩ := m2Try_decomp v k2 n2 hm2
          have hrearr : c :: (u ++ (v.take k2 ++ (eqRedacted ++ sub2Go (v.drop n2)))) =
              ((c :: u) ++ v.take k2) ++ (eqRedacted ++ sub2Go (v.drop n2)) := by
            rw [List.append_assoc, List.cons_append]
          rw [hrearr]
          refine m2Try_swap_tail ((c :: u) ++ v.take k2) (v.drop k2) _ sep r2 hsepv hsepT
            hvv ?_
          rw [List.append_assoc, List.take_append_drop, List.cons_append, ← he1]
          exact hm
      · obtain ⟨k2, n2⟩ := kn
        rw [sub2Go_some hm, List.append_assoc]
        obtain ⟨hkv, sep, r2, hsepv, hsepT, hvv, hnv⟩ := m2Try_decomp _ k2 n2 hm
        have hb := m2Try_bounds (c :: rest) k2 n2 hm
        refine Good2.repl ((c :: rest).take k2) (sub2Go ((c :: rest).drop n2))
          (isKey_of_keyTry _ k2 hkv) ?_ (ih _ ?_)
        · rcases hS : sub2Go ((c :: rest).drop n2) with _ | ⟨s0, st⟩
          · exact Or.inl rfl
          · refine Or.inr ⟨s0, st, rfl, ?_⟩
            rcases hdn : (c :: rest).drop n2 with _ | ⟨c0, t0⟩
            · rw [hdn, sub2Go_nil] at hS
              simp at hS
            · have hsp := m2Try_drop_head (c :: rest) k2 n2 hm c0 t0 hdn
              have hnone : m2Try (c0 :: t0) = none :=
                m2Try_none_of_keyTry _ (keyTry_stop_head c0 t0 (by rw [isStopChar, hsp]; rfl))
              rw [hdn, sub2Go_none hnone] at hS
              injection hS with h1 h2
              rw [← h1]
              exact hsp
        · rw [List.length_drop]
          simp only [List.length_cons] at hb ⊢
          omega

theorem good2_sub2Go (l : List Char) : Good2 (sub2Go l) :=
  good2_sub2Go_aux l.length l (le_refl _)

theorem noM1_sub2Go_aux (kk : ℕ) : ∀ l : List Char, l.length ≤ kk → noM1 l →
    noM1 (sub2Go l) := by
  induction kk with
  | zero =>
    intro l hl hn
    obtain rfl : l = [] := List.eq_nil_of_length_eq_zero (by omega)
    rw [sub2Go_nil]
    exact hn
  | succ kk ih =>
    intro l hl hn
    match l with
    | [] =>
      rw [sub2Go_nil]
      exact hn
    | c :: rest =>
      have hrl : rest.length ≤ kk := by
        simp only [List.length_cons] at hl
        omega
      rcases hm : m2Try (c :: rest) with _ | kn
      · rw [sub2Go_none hm]
        intro i
        match i with
        | 0 =>
          rw [List.drop_zero]
          rcases sub2Go_split rest with h1 | ⟨u, v, w, k2, n2, he1, he2, hm2, hw⟩
          · rw [h1]
            have h0 := hn 0
            rwa [List.drop_zero] at h0
          · rw [he2, hw]
            by_contra hne
            obtain ⟨n3, hn3⟩ : ∃ n3, m1Try (c :: (u ++ (v.take k2 ++ (eqRedacted ++
                sub2Go (v.drop n2))))) = some n3 := by
              rcases ho : m1Try (c :: (u ++ (v.take k2 ++ (eqRedacted ++
                  sub2Go (v.drop n2))))) with _ | n3
              · exact absurd ho hne
              · exact ⟨n3, rfl⟩
            rw [show c :: (u ++ (v.take k2 ++ (eqRedacted ++ sub2Go (v.drop n2)))) =
              ((c :: u) ++ v.take k2) ++ (eqRedacted ++ sub2Go (v.drop n2)) from by
                rw [List.append_assoc, List.cons_append]] at hn3
            obtain ⟨n4, hn4⟩ := m1Try_swap_tail _ _ (v.drop k2) n3
              (Or.inr (eqRedacted_head _)) hn3
            rw [List.append_assoc, List.take_append_drop, List.cons_append, ← he1] at hn4
            have h0 := hn 0
            rw [List.drop_zero] at h0
            rw [h0] at hn4
            exact absurd hn4 (by simp)
        | i + 1 =>
          rw [List.drop_succ_cons]
          exact ih rest hrl (noM1_cons_elim hn) i
      · obtain ⟨k2, n2⟩ := kn
        rw [sub2Go_some hm, List.append_assoc]
        have hb := m2Try_bounds (c :: rest) k2 n2 hm
        have hA : ((c :: rest).take k2).length = k2 := by
          rw [List.length_take]
          simp only [List.length_cons] at hb ⊢
          omega
        intro i
        rw [List.drop_append_eq_append_drop, hA]
        by_cases hi : i < k2
        · have h0 : i - k2 = 0 := by omega
          rw [h0, List.drop_zero]
          by_contra hne
          obtain ⟨n3, hn3⟩ : ∃ n3, m1Try (((c :: rest).take k2).drop i ++ (eqRedacted ++
              sub2Go ((c :: rest).drop n2))) = some n3 := by
            rcases ho : m1Try (((c :: rest).take k2).drop i ++ (eqRedacted ++
                sub2Go ((c :: rest).drop n2))) with _ | n3
            · exact absurd ho hne
            · exact ⟨n3, rfl⟩
          obtain ⟨n4, hn4⟩ := m1Try_swap_tail _ _ ((c :: rest).drop k2) n3
            (Or.inr (eqRedacted_head _)) hn3
          have hsplit2 : (c :: rest).drop i = ((c :: rest).take k2).drop i ++
              (c :: rest).drop k2 := by
            conv_lhs => rw [← List.take_append_drop k2 (c :: rest)]
            rw [List.drop_append_eq_append_drop, hA, h0, List.drop_zero]
          rw [← hsplit2] at hn4
          rw [hn i] at hn4
          exact absurd hn4 (by simp)
        · rw [List.drop_eq_nil_of_le (by omega), List.nil_append,
            List.drop_append_eq_append_drop]
          by_cases hi2 : i - k2 < 11
          · have h0 : i - k2 - eqRedacted.length = 0 := by
              rw [eqRedacted_len]
              omega
            rw [h0, List.drop_zero]
            exact bdOk_none eqRedacted bdOk_eqRedacted (i - k2)
              (by rw [eqRedacted_len]; omega) _
          · rw [List.drop_eq_nil_of_le (by rw [eqRedacted_len]; omega), List.nil_append]
            have hlen : ((c :: rest).drop n2).length ≤ kk := by
              rw [List.length_drop]
              simp only [List.length_cons] at hb ⊢
              omega
            exact ih _ hlen (noM1_drop hn n2) _

/-- C10: the claim says `redact` is idempotent: applying the redaction a
second time to already-redacted text changes nothing.  Both replacement
strings are fixed points of the scans they and the preserved text induce:
the first pass leaves no Discord-token match anywhere, the second pass
cannot manufacture one, and re-scanning a `key=[REDACTED]` replacement
reproduces it verbatim. -/
theorem C10_redact_idempotent (s : String) : redact (redact s) = redact s := by
  rw [redact, redact]
  have hdata : (String.mk (sub2Go (sub1Go s.data))).data = sub2Go (sub1Go s.data) := rfl
  rw [hdata]
  rw [sub1Go_of_noM1 _ (noM1_sub2Go_aux (sub1Go s.data).length _ (le_refl _)
    (noM1_sub1Go s.data))]
  rw [sub2Go_of_good2 _ (good2_sub2Go (sub1Go s.data))]

end Cowai
